import Mathlib

/-!
Verification development for the `zsh-tool` repository (Rust sources under
`src/zsh-tool-rs/`).  Each section embeds one component of the program as
executable Lean definitions translated from the Rust source, and proves the
stated properties about them.

Conventions used throughout:
* Rust `f64` timestamps and weights are modelled as `ℚ` (the claims only use
  ordering and field arithmetic on them, never rounding behaviour).
* Rust `u64`/`usize` become `ℕ`, `i32`/`i64` become `ℤ`.
* Mutable methods become pure functions returning the updated structure.
-/

namespace ZshTool

/-! ## Circuit breaker (`src/zsh-tool-rs/src/circuit.rs`)

`CircuitBreaker::now()` reads the system clock; the embedding passes the
current time `now : ℚ` explicitly to each method that reads the clock. -/

/-- `CircuitState` from `circuit.rs`. -/
inductive CircuitState where
  | Closed
  | Open
  | HalfOpen
deriving DecidableEq, Repr

/-- `CircuitBreaker` from `circuit.rs` (field for field). -/
structure CircuitBreaker where
  state : CircuitState
  failures : List (ℚ × String)
  last_failure : Option ℚ
  opened_at : Option ℚ
  failure_threshold : ℕ
  recovery_timeout : ℕ
  sample_window : ℕ
deriving DecidableEq, Repr

namespace CircuitBreaker

/-- `CircuitBreaker::new`. -/
def new (failure_threshold recovery_timeout sample_window : ℕ) : CircuitBreaker where
  state := .Closed
  failures := []
  last_failure := none
  opened_at := none
  failure_threshold := failure_threshold
  recovery_timeout := recovery_timeout
  sample_window := sample_window

/-- `CircuitBreaker::record_timeout`: push `(now, hash)`, retain failures with
timestamp strictly above `now - sample_window`, and open the circuit when the
retained count reaches `failure_threshold`. -/
def record_timeout (cb : CircuitBreaker) (command_hash : String) (now : ℚ) :
    CircuitBreaker :=
  let failures :=
    (cb.failures ++ [(now, command_hash)]).filter
      (fun p => decide (now - (cb.sample_window : ℚ) < p.1))
  let cb' := { cb with failures := failures, last_failure := some now }
  if cb.failure_threshold ≤ cb'.failures.length then
    { cb' with state := .Open, opened_at := some now }
  else
    cb'

/-- `CircuitBreaker::record_success`: only a `HalfOpen` breaker reacts. -/
def record_success (cb : CircuitBreaker) : CircuitBreaker :=
  if cb.state = .HalfOpen then
    { cb with state := .Closed, failures := [] }
  else
    cb

/-- `CircuitBreaker::should_allow`, returning the updated breaker together with
the `(allowed, optional_message)` pair of the Rust method.  The Rust code
truncates `remaining` with `as i64`; `remaining` is nonnegative in that branch,
so truncation toward zero is `Int.floor`. -/
def should_allow (cb : CircuitBreaker) (now : ℚ) :
    CircuitBreaker × Bool × Option String :=
  match cb.state with
  | .Closed => (cb, true, none)
  | .Open =>
    match cb.opened_at with
    | some opened_at =>
      if (cb.recovery_timeout : ℚ) < now - opened_at then
        ({ cb with state := .HalfOpen },
          true, some "NEVERHANG: Circuit half-open, testing recovery")
      else
        let remaining := (cb.recovery_timeout : ℚ) - (now - opened_at)
        (cb, false, some ("NEVERHANG: Circuit OPEN due to " ++
          toString cb.failures.length ++ " recent timeouts. Retry in " ++
          toString (⌊remaining⌋ : ℤ) ++ "s"))
    | none => (cb, false, some "NEVERHANG: Circuit OPEN")
  | .HalfOpen => (cb, true, some "NEVERHANG: Circuit half-open, monitoring")

/-- `CircuitBreaker::reset`. -/
def reset (cb : CircuitBreaker) : CircuitBreaker :=
  { cb with state := .Closed, failures := [], last_failure := none,
            opened_at := none }

end CircuitBreaker

/-- Breaker states reachable from a freshly constructed breaker by any
sequence of `record_timeout`, `record_success`, `should_allow` and `reset`
calls (with arbitrary clock readings and command hashes). -/
inductive ReachableCB : CircuitBreaker → Prop where
  | init (ft rt sw : ℕ) : ReachableCB (CircuitBreaker.new ft rt sw)
  | timeout {cb : CircuitBreaker} (h : String) (now : ℚ) :
      ReachableCB cb → ReachableCB (cb.record_timeout h now)
  | success {cb : CircuitBreaker} :
      ReachableCB cb → ReachableCB cb.record_success
  | allow {cb : CircuitBreaker} (now : ℚ) :
      ReachableCB cb → ReachableCB (cb.should_allow now).1
  | rst {cb : CircuitBreaker} :
      ReachableCB cb → ReachableCB cb.reset

/-- Two timeout records are within the sample window of each other: the
earlier happened no later, and strictly less than `sw` seconds before. -/
def withinWindow (sw : ℕ) (a b : ℚ × String) : Prop :=
  a.1 ≤ b.1 ∧ b.1 - a.1 < (sw : ℚ)

/-- Fold a list of `(timestamp, hash)` timeout records into a breaker. -/
def recordTimeouts (cb : CircuitBreaker) (ts : List (ℚ × String)) :
    CircuitBreaker :=
  ts.foldl (fun c p => c.record_timeout p.2 p.1) cb

/-- The behaviour claimed for the breaker lifecycle, as one proposition over
the breaker obtained by folding the given timeout records into a fresh
breaker: the first `should_allow` (still within the recovery timeout) denies
with a message and leaves the breaker unchanged; a later `should_allow` past
the recovery timeout allows with the half-open message and moves the state to
`HalfOpen`; a subsequent `record_success` restores `Closed` with an empty
failure list. -/
def C1Post (ft rt sw : ℕ) (ts : List (ℚ × String)) (now1 now2 : ℚ) : Prop :=
  let cb1 := recordTimeouts (CircuitBreaker.new ft rt sw) ts
  (cb1.should_allow now1).1 = cb1 ∧
  (cb1.should_allow now1).2.1 = false ∧
  ((cb1.should_allow now1).2.2).isSome = true ∧
  (cb1.should_allow now2).2.1 = true ∧
  (cb1.should_allow now2).2.2 =
    some "NEVERHANG: Circuit half-open, testing recovery" ∧
  (cb1.should_allow now2).1.state = .HalfOpen ∧
  (cb1.should_allow now2).1.record_success.state = .Closed ∧
  (cb1.should_allow now2).1.record_success.failures = []

/-- A breaker opened by one timeout (threshold 1) and then probed after the
recovery timeout: `should_allow` has moved it to `HalfOpen`, but `opened_at`
is still set. -/
def c2Breaker : CircuitBreaker :=
  (((CircuitBreaker.new 1 0 10).record_timeout "h" 0).should_allow 1).1

/-! ## Whitespace machinery (`src/zsh-tool-rs/src/alan/hash.rs`)

`hash.rs` normalizes commands with `str::trim`, the regex `\s+ → " "`, quote
and digit-run replacement, and `template_command` splits on the collapsed
whitespace.  Strings are modelled as `List Char`. -/

/-- The Unicode `White_Space` code points: both Rust `char::is_whitespace`
(used by `str::trim` / `split_whitespace`) and the `\s` class of the `regex`
crate match exactly this set. -/
def isWs (c : Char) : Bool :=
  c.toNat = 0x20 || (0x09 ≤ c.toNat && c.toNat ≤ 0x0D) ||
  c.toNat = 0x85 || c.toNat = 0xA0 || c.toNat = 0x1680 ||
  (0x2000 ≤ c.toNat && c.toNat ≤ 0x200A) ||
  c.toNat = 0x2028 || c.toNat = 0x2029 || c.toNat = 0x202F ||
  c.toNat = 0x205F || c.toNat = 0x3000

/-- Leading-whitespace strip (`str::trim_start`). -/
def trimLeft (l : List Char) : List Char := l.dropWhile isWs

/-- Trailing-whitespace strip (`str::trim_end`). -/
def trimRight (l : List Char) : List Char := (l.reverse.dropWhile isWs).reverse

/-- `str::trim`. -/
def trim (l : List Char) : List Char := trimRight (trimLeft l)

/-- `RE_WHITESPACE.replace_all(s, " ")`: every maximal whitespace run becomes
one space. -/
def collapseWs : List Char → List Char
  | [] => []
  | c :: cs =>
    if isWs c then ' ' :: collapseWs (cs.dropWhile isWs)
    else c :: collapseWs cs
termination_by l => l.length
decreasing_by
  · exact Nat.lt_succ_of_le ((List.dropWhile_sublist _).length_le)
  · exact Nat.lt_succ_self _

/-- The whitespace-separated words of a string (the view of a command taken
by `split_whitespace` / the spec's "whitespace-split tokens"). -/
def wsWords : List Char → List (List Char)
  | [] => []
  | c :: cs =>
    if isWs c then wsWords cs
    else (c :: cs.takeWhile (fun x => !isWs x)) ::
      wsWords (cs.dropWhile (fun x => !isWs x))
termination_by l => l.length
decreasing_by
  · exact Nat.lt_succ_self _
  · exact Nat.lt_succ_of_le ((List.dropWhile_sublist _).length_le)

/-- Words joined by single spaces. -/
def joinWords : List (List Char) → List Char
  | [] => []
  | [w] => w
  | w :: ws => w ++ ' ' :: joinWords ws

/-! ## Command hashing (`src/zsh-tool-rs/src/alan/hash.rs`, `hash_command`) -/

/-- The tail after the first occurrence of `q`, when there is one. -/
def afterChar (q : Char) : List Char → Option (List Char)
  | [] => none
  | c :: cs => if c = q then some cs else afterChar q cs

/-- `replace_all` of the regex `q[^q]*q → qq` (used with `q = '"'` for
`RE_DOUBLE_QUOTED` and `q = '\''` for `RE_SINGLE_QUOTED`): scanning left to
right, a quote with a later closing quote is replaced together with the
enclosed span by an empty pair of the same quotes, and scanning resumes after
the closing quote; an unmatched quote has no later quote after it, so the
remainder is copied verbatim. -/
def replaceQuoted (q : Char) : List Char → List Char
  | [] => []
  | c :: cs =>
    if c = q then
      match h : afterChar q cs with
      | some rest => q :: q :: replaceQuoted q rest
      | none => c :: cs
    else c :: replaceQuoted q cs
termination_by l => l.length
decreasing_by
  · have key : ∀ (l r : List Char), afterChar q l = some r → r.length < l.length := by
      intro l
      induction l with
      | nil => intro r hr; simp [afterChar] at hr
      | cons a as ih =>
        intro r hr
        rw [afterChar] at hr
        by_cases ha : a = q
        · rw [if_pos ha] at hr
          injection hr with hr
          subst hr
          simp
        · rw [if_neg ha] at hr
          have := ih r hr
          simp only [List.length_cons]
          omega
    exact Nat.lt_succ_of_le (Nat.le_of_lt (key cs _ h))
  · exact Nat.lt_succ_self _

/-- The `\d` class, over ASCII (the commands the store fingerprints are byte
strings of shell text; non-ASCII decimal digits are not modelled). -/
def isDigitChar (c : Char) : Bool := c.isDigit

/-- The `\w` class used by the word boundary `\b`, over ASCII. -/
def isWordChar (c : Char) : Bool := c.isAlphanum || c = '_'

/-- `RE_BARE_NUMBERS.replace_all(s, "N")` for the regex `\b\d+\b`: a maximal
digit run whose neighbours (or string edges) are non-word characters becomes
`N`; other digit runs are copied.  `prev` is the character of the original
string just before the remaining input (`none` at the start). -/
def replaceBareNumbers (prev : Option Char) : List Char → List Char
  | [] => []
  | c :: cs =>
    if isDigitChar c &&
        (match prev with | none => true | some p => !isWordChar p) then
      let run := c :: cs.takeWhile isDigitChar
      match hrest : cs.dropWhile isDigitChar with
      | [] => ['N']
      | d :: ds =>
        if isWordChar d then
          run ++ replaceBareNumbers (some (run.getLastD c)) (d :: ds)
        else
          'N' :: replaceBareNumbers (some (run.getLastD c)) (d :: ds)
    else c :: replaceBareNumbers (some c) cs
termination_by l => l.length
decreasing_by
  · have h2 : (cs.dropWhile isDigitChar).length ≤ cs.length :=
      (List.dropWhile_sublist _).length_le
    rw [hrest] at h2
    simp only [List.length_cons] at h2 ⊢
    omega
  · have h2 : (cs.dropWhile isDigitChar).length ≤ cs.length :=
      (List.dropWhile_sublist _).length_le
    rw [hrest] at h2
    simp only [List.length_cons] at h2 ⊢
    omega
  · exact Nat.lt_succ_self _

/-- The normalization pipeline of `hash_command`: trim, collapse whitespace
runs, empty out double- then single-quoted spans, then replace bare digit
runs by `N`. -/
def normalizeCommand (l : List Char) : List Char :=
  replaceBareNumbers none
    (replaceQuoted '\'' (replaceQuoted '"' (collapseWs (trim l))))

/-! ### SHA-256 (the `sha2` crate's `Sha256`, FIPS 180-4), over `ℕ` bytes -/

/-- Truncate to a 32-bit word. -/
def w32 (x : ℕ) : ℕ := x % 4294967296

/-- Right-rotation of a 32-bit word. -/
def rotr (n x : ℕ) : ℕ := w32 (x / 2 ^ n + x % 2 ^ n * 2 ^ (32 - n))

/-- Logical right shift. -/
def shr (n x : ℕ) : ℕ := x / 2 ^ n

def bigSigma0 (x : ℕ) : ℕ := rotr 2 x ^^^ rotr 13 x ^^^ rotr 22 x
def bigSigma1 (x : ℕ) : ℕ := rotr 6 x ^^^ rotr 11 x ^^^ rotr 25 x
def smallSigma0 (x : ℕ) : ℕ := rotr 7 x ^^^ rotr 18 x ^^^ shr 3 x
def smallSigma1 (x : ℕ) : ℕ := rotr 17 x ^^^ rotr 19 x ^^^ shr 10 x
def chFn (x y z : ℕ) : ℕ := (x &&& y) ^^^ ((x ^^^ 4294967295) &&& z)
def majFn (x y z : ℕ) : ℕ := (x &&& y) ^^^ (x &&& z) ^^^ (y &&& z)

/-- The 64 SHA-256 round constants. -/
def shaK : List ℕ :=
  [1116352408, 1899447441, 3049323471, 3921009573, 961987163,
   1508970993, 2453635748, 2870763221, 3624381080, 310598401,
   607225278, 1426881987, 1925078388, 2162078206, 2614888103,
   3248222580, 3835390401, 4022224774, 264347078, 604807628,
   770255983, 1249150122, 1555081692, 1996064986, 2554220882,
   2821834349, 2952996808, 3210313671, 3336571891, 3584528711,
   113926993, 338241895, 666307205, 773529912, 1294757372,
   1396182291, 1695183700, 1986661051, 2177026350, 2456956037,
   2730485921, 2820302411, 3259730800, 3345764771, 3516065817,
   3600352804, 4094571909, 275423344, 430227734, 506948616,
   659060556, 883997877, 958139571, 1322822218, 1537002063,
   1747873779, 1955562222, 2024104815, 2227730452, 2361852424,
   2428436474, 2756734187, 3204031479, 3329325298]

/-- The SHA-256 initial hash value. -/
def shaH0 : List ℕ :=
  [1779033703, 3144134277, 1013904242, 2773480762,
   1359893119, 2600822924, 528734635, 1541459225]

/-- `n` big-endian bytes of `x`. -/
def beBytes : ℕ → ℕ → List ℕ
  | 0, _ => []
  | n + 1, x => beBytes n (x / 256) ++ [x % 256]

/-- SHA-256 padding: append `0x80`, zeros to 56 mod 64, and the 8-byte
big-endian bit length. -/
def padMessage (msg : List ℕ) : List ℕ :=
  let len := msg.length
  let zeros := (120 - (len + 1) % 64) % 64
  msg ++ [0x80] ++ List.replicate zeros 0 ++ beBytes 8 (8 * len)

/-- Big-endian 4-byte groups to 32-bit words. -/
def toWords : List ℕ → List ℕ
  | b0 :: b1 :: b2 :: b3 :: rest =>
    (((b0 * 256 + b1) * 256 + b2) * 256 + b3) :: toWords rest
  | _ => []

/-- Split into 64-byte blocks. -/
def chunks64 : List ℕ → List (List ℕ)
  | [] => []
  | c :: rest => (c :: rest).take 64 :: chunks64 ((c :: rest).drop 64)
termination_by l => l.length
decreasing_by
  simp only [List.length_drop, List.length_cons]
  omega

/-- Extend the 16 message-schedule words to 64. -/
def schedule (w16 : List ℕ) : List ℕ :=
  (List.range 48).foldl
    (fun w _ =>
      let n := w.length
      w ++ [w32 (w.getD (n - 16) 0 + smallSigma0 (w.getD (n - 15) 0) +
        w.getD (n - 7) 0 + smallSigma1 (w.getD (n - 2) 0))])
    w16

/-- One SHA-256 compression round over the working state. -/
def shaRound (st : ℕ × ℕ × ℕ × ℕ × ℕ × ℕ × ℕ × ℕ) (wk : ℕ × ℕ) :
    ℕ × ℕ × ℕ × ℕ × ℕ × ℕ × ℕ × ℕ :=
  let (a, b, c, d, e, f, g, h) := st
  let t1 := w32 (h + bigSigma1 e + chFn e f g + wk.2 + wk.1)
  let t2 := w32 (bigSigma0 a + majFn a b c)
  (w32 (t1 + t2), a, b, c, w32 (d + t1), e, f, g)

/-- Compress one 64-byte block (given as 16 words) into the hash state. -/
def compress (h : List ℕ) (blockWords : List ℕ) : List ℕ :=
  let ws := schedule blockWords
  let init := (h.getD 0 0, h.getD 1 0, h.getD 2 0, h.getD 3 0,
    h.getD 4 0, h.getD 5 0, h.getD 6 0, h.getD 7 0)
  let (a, b, c, d, e, f, g, hh) := (ws.zip shaK).foldl shaRound init
  [w32 (h.getD 0 0 + a), w32 (h.getD 1 0 + b), w32 (h.getD 2 0 + c),
   w32 (h.getD 3 0 + d), w32 (h.getD 4 0 + e), w32 (h.getD 5 0 + f),
   w32 (h.getD 6 0 + g), w32 (h.getD 7 0 + hh)]

/-- SHA-256 digest (32 bytes) of a byte string. -/
def sha256 (msg : List ℕ) : List ℕ :=
  let blocks := chunks64 (padMessage msg)
  let hFinal := blocks.foldl (fun h b => compress h (toWords b)) shaH0
  (hFinal.map (beBytes 4)).flatten

/-- UTF-8 encoding of one character. -/
def utf8Bytes (c : Char) : List ℕ :=
  let n := c.toNat
  if n < 0x80 then [n]
  else if n < 0x800 then [0xC0 + n / 64, 0x80 + n % 64]
  else if n < 0x10000 then
    [0xE0 + n / 4096, 0x80 + n / 64 % 64, 0x80 + n % 64]
  else
    [0xF0 + n / 262144, 0x80 + n / 4096 % 64, 0x80 + n / 64 % 64,
      0x80 + n % 64]

/-- UTF-8 bytes of a string. -/
def strBytes (l : List Char) : List ℕ := (l.map utf8Bytes).flatten

def hexDigit (n : ℕ) : Char :=
  if n < 10 then Char.ofNat (48 + n)
  else if n < 16 then Char.ofNat (87 + n)
  else '0'

def byteHex (b : ℕ) : List Char := [hexDigit (b / 16), hexDigit (b % 16)]

/-- `hash_command`: normalize, SHA-256, lowercase hex, first 16 characters
(= the first 8 digest bytes). -/
def hash_command (l : List Char) : List Char :=
  (((sha256 (strBytes (normalizeCommand l))).map byteHex).flatten).take 16

/-- `hash_command` on `String`s. -/
def hashCommand (s : String) : String := ⟨hash_command s.data⟩

/-! ## Command templating (`src/zsh-tool-rs/src/alan/hash.rs`, `template_command`) -/

/-- `BASE_COMMANDS` from `hash.rs`: base commands that take subcommands. -/
def BASE_COMMANDS : List String :=
  ["git", "npm", "yarn", "pip", "docker", "kubectl", "make", "cargo", "go",
   "python", "node", "ruby", "curl", "wget", "cat", "grep", "find", "ls",
   "cd", "rm", "cp", "mv", "mkdir", "systemctl", "journalctl", "apt",
   "pacman", "brew"]

/-- Prepend a character to the first piece of a split. -/
def consHead (c : Char) : List (List Char) → List (List Char)
  | [] => [[c]]
  | h :: t => (c :: h) :: t

/-- Rust `str::split(sep)`: splits at every separator, keeping empty pieces
(`"".split(' ')` is `[""]`). -/
def splitOnChar (sep : Char) : List Char → List (List Char)
  | [] => [[]]
  | c :: cs =>
    if c = sep then [] :: splitOnChar sep cs
    else consHead c (splitOnChar sep cs)

/-- `BASE_COMMANDS.contains(&part.to_lowercase())` (ASCII lowercasing; the
table is ASCII). -/
def knownBase (p : List Char) : Bool :=
  BASE_COMMANDS.contains (String.mk (p.map Char.toLower))

/-- `part.starts_with('-')`. -/
def isFlagTok : List Char → Bool
  | '-' :: _ => true
  | _ => false

/-- Whether the most recently emitted template part is `"*"`
(`template_parts.last().is_none_or(|l| l != "*")` negated). -/
def starAcc : List (List Char) → Bool
  | a :: _ => a == ['*']
  | [] => false

/-- The token loop of `template_command`: `foundBase`/`first` mirror the
`found_base` flag and the `i ≥ 1` test; `acc` holds the emitted parts in
reverse. -/
def templateGo (foundBase first : Bool) (acc : List (List Char)) :
    List (List Char) → List (List Char)
  | [] => acc.reverse
  | p :: rest =>
    if !foundBase then
      if knownBase p then
        if (match rest with | r :: _ => !isFlagTok r | [] => false) then
          templateGo false false (p :: acc) rest
        else templateGo true false (p :: acc) rest
      else if !first then templateGo true false (p :: acc) rest
      else templateGo false false (p :: acc) rest
    else
      if isFlagTok p then templateGo true false (p :: acc) rest
      else if !starAcc acc then templateGo true false (['*'] :: acc) rest
      else templateGo true false acc rest

/-- `template_command`: collapse whitespace, split on single spaces, keep the
base (and subcommands), keep flags, collapse positional runs to `*`. -/
def template_command (s : String) : String :=
  let normalized := collapseWs (trim s.data)
  let parts := splitOnChar ' ' normalized
  if parts.isEmpty then "" else
    String.mk (joinWords (templateGo false true [] parts))

/-- The wildcard tail shared by the claim-side and amended-side templates:
flags are emitted verbatim and each maximal run of positional tokens becomes
one `*`; `star` records whether the previously emitted part is `"*"` (the
code suppresses a wildcard right after one). -/
def wildTail (star : Bool) : List (List Char) → List (List Char)
  | [] => []
  | p :: ps =>
    if isFlagTok p then p :: wildTail (p == ['*']) ps
    else if star then wildTail true ps
    else ['*'] :: wildTail true ps

/-- The claim's version of the wildcard tail: flags verbatim, each maximal
positional run becomes one `*` (no interaction with literal `*` tokens). -/
def claimWildTail (star : Bool) : List (List Char) → List (List Char)
  | [] => []
  | p :: ps =>
    if isFlagTok p then p :: claimWildTail false ps
    else if star then claimWildTail true ps
    else ['*'] :: claimWildTail true ps

/-- The template as claim C3 words it: emit the first token; iff it is in the
known subcommand-taking set, also emit the next token verbatim (when it does
not start with `-`); thereafter flags verbatim and positional runs collapse
to a single `*`. -/
def claimTemplateTokens : List (List Char) → List (List Char)
  | [] => []
  | t0 :: rest =>
    if knownBase t0 then
      match rest with
      | t1 :: rest' =>
        if !isFlagTok t1 then t0 :: t1 :: claimWildTail false rest'
        else t0 :: claimWildTail false rest
      | [] => [t0]
    else t0 :: claimWildTail false rest

/-- Claim C3's template on strings (same normalization and split as
`template_command`). -/
def claimTemplate (s : String) : String :=
  String.mk (joinWords (claimTemplateTokens
    (splitOnChar ' ' (collapseWs (trim s.data)))))

/-- The base scan as the code actually behaves: after an emitted token `t`
that is a known base followed by a non-flag token, that token is emitted too
and the scan continues from it; when the FIRST token is not a known base, the
second token is also emitted verbatim; otherwise the wildcard tail starts. -/
def amendedScan (first : Bool) (t : List Char) : List (List Char) → List (List Char)
  | [] => []
  | t' :: rest =>
    if knownBase t && !isFlagTok t' then t' :: amendedScan false t' rest
    else if !knownBase t && first then t' :: amendedScan false t' rest
    else wildTail (t == ['*']) (t' :: rest)

def amendedTemplateTokens : List (List Char) → List (List Char)
  | [] => []
  | t0 :: rest => t0 :: amendedScan true t0 rest

/-- Claim C3 amended, as a template on strings. -/
def amendedTemplate (s : String) : String :=
  String.mk (joinWords (amendedTemplateTokens
    (splitOnChar ' ' (collapseWs (trim s.data)))))

/-! ## Pipeline splitting (`src/zsh-tool-rs/src/alan/pipeline.rs`) -/

/-- The scanning loop of `parse_pipeline`: `segments`/`current` are the two
accumulators of the Rust while-loop, `in_single`/`in_double`/`escape_next`
its three state flags; the remaining input is the list argument. -/
def parse_pipeline_go (segments : List String) (current : List Char)
    (in_single in_double escape_next : Bool) : List Char → List String
  | [] =>
    if trim current = [] then segments
    else segments ++ [String.mk (trim current)]
  | c :: cs =>
    if escape_next then
      parse_pipeline_go segments (current ++ [c]) in_single in_double false cs
    else if c = '\\' then
      parse_pipeline_go segments (current ++ [c]) in_single in_double true cs
    else if c = '\'' ∧ ¬in_double then
      parse_pipeline_go segments (current ++ [c]) (!in_single) in_double false cs
    else if c = '"' ∧ ¬in_single then
      parse_pipeline_go segments (current ++ [c]) in_single (!in_double) false cs
    else if c = '|' ∧ ¬in_single ∧ ¬in_double then
      if cs.head? = some '|' then
        parse_pipeline_go segments (current ++ ['|', '|'])
          in_single in_double false cs.tail
      else
        parse_pipeline_go
          (if trim current = [] then segments
            else segments ++ [String.mk (trim current)])
          [] in_single in_double false cs
    else
      parse_pipeline_go segments (current ++ [c]) in_single in_double false cs
termination_by l => l.length
decreasing_by
  all_goals simp only [List.length_tail, List.length_cons]
  all_goals omega

/-- `parse_pipeline`: split on unquoted, unescaped, non-`||` pipes; trim the
segments; drop empty ones. -/
def parse_pipeline (s : String) : List String :=
  parse_pipeline_go [] [] false false false s.data

/-- The claim's view of the same scan: the raw chunks of the input delimited
at every `|` that is outside single and double quotes, not escaped, and not
part of a `||` pair (which stays in its chunk as the logical-OR operator). -/
def pipeChunks (in_single in_double escape_next : Bool) :
    List Char → List (List Char)
  | [] => [[]]
  | c :: cs =>
    if escape_next then consHead c (pipeChunks in_single in_double false cs)
    else if c = '\\' then consHead c (pipeChunks in_single in_double true cs)
    else if c = '\'' ∧ ¬in_double then
      consHead c (pipeChunks (!in_single) in_double false cs)
    else if c = '"' ∧ ¬in_single then
      consHead c (pipeChunks in_single (!in_double) false cs)
    else if c = '|' ∧ ¬in_single ∧ ¬in_double then
      if cs.head? = some '|' then
        consHead c (consHead '|' (pipeChunks in_single in_double false cs.tail))
      else [] :: pipeChunks in_single in_double false cs
    else consHead c (pipeChunks in_single in_double false cs)
termination_by l => l.length
decreasing_by
  all_goals simp only [List.length_tail, List.length_cons]
  all_goals omega

/-- The splitter as claim C8 words it: chunks delimited at top-level single
pipes, each trimmed, empty segments dropped. -/
def splitSpec (s : String) : List String :=
  ((pipeChunks false false false s.data).map
    (fun l => String.mk (trim l))).filter (fun x => x ≠ "")

/-- `cur` prepended into the first chunk. -/
def consAll (cur : List Char) : List (List Char) → List (List Char)
  | [] => [cur]
  | h :: t => (cur ++ h) :: t

/-! ## Executor pipestatus recovery (`src/zsh-tool-rs/src/executor.rs`) -/

/-- Rust `str::parse::<u32-digit-part>`: the value of a nonempty all-digit
string. -/
def digitsVal (l : List Char) : Option ℕ :=
  if l ≠ [] ∧ l.all (fun c => c.isDigit) then
    some (l.foldl (fun acc c => acc * 10 + (c.toNat - 48)) 0)
  else none

/-- Rust `str::parse::<i32>`: optional sign, at least one digit, value within
`i32` range. -/
def parseI32 : List Char → Option ℤ
  | '+' :: ds =>
    (digitsVal ds).bind fun n =>
      if n ≤ 2147483647 then some (n : ℤ) else none
  | '-' :: ds =>
    (digitsVal ds).bind fun n =>
      if n ≤ 2147483648 then some (-(n : ℤ)) else none
  | ds =>
    (digitsVal ds).bind fun n =>
      if n ≤ 2147483647 then some (n : ℤ) else none

/-- `parse_pipestatus`: split on whitespace, keep the tokens that parse as
`i32`. -/
def parse_pipestatus (raw : String) : List ℤ :=
  (wsWords raw.data).filterMap parseI32

/-- `ExecResult` from `meta.rs`. -/
structure ExecResult where
  pipestatus : List ℤ
  exit_code : ℤ
  elapsed_ms : ℕ
  timed_out : Bool
deriving DecidableEq, Repr

/-- The result-assembly step of `execute_pipe` (executor.rs lines 149–164):
parse the sideband metadata; if the pipestatus list is empty, synthesize it
as `[exit_code]`; the reported exit code is the last element. -/
def finalize_pipe (meta_raw : String) (exit_code : ℤ) (elapsed_ms : ℕ)
    (timed_out : Bool) : ExecResult :=
  match parse_pipestatus meta_raw with
  | [] =>
    { pipestatus := [exit_code], exit_code := exit_code,
      elapsed_ms := elapsed_ms, timed_out := timed_out }
  | p :: ps =>
    { pipestatus := p :: ps, exit_code := (p :: ps).getLast (by simp),
      elapsed_ms := elapsed_ms, timed_out := timed_out }

/-- The identical result-assembly step of `execute_pty` (executor.rs lines
304–315), with the PTY variant's `raw_exit_code`. -/
def finalize_pty (meta_raw : String) (raw_exit_code : ℤ) (elapsed_ms : ℕ)
    (timed_out : Bool) : ExecResult :=
  match parse_pipestatus meta_raw with
  | [] =>
    { pipestatus := [raw_exit_code], exit_code := raw_exit_code,
      elapsed_ms := elapsed_ms, timed_out := timed_out }
  | p :: ps =>
    { pipestatus := p :: ps, exit_code := (p :: ps).getLast (by simp),
      elapsed_ms := elapsed_ms, timed_out := timed_out }

/-! ## Streak tracking (`src/zsh-tool-rs/src/alan/streak.rs`) -/

/-- One row of the `streaks` table (keyed externally by `command_hash`). -/
structure StreakRow where
  current_streak : ℤ
  longest_success_streak : ℤ
  longest_fail_streak : ℤ
  last_result : ℤ
  last_updated : ℚ
deriving DecidableEq, Repr

/-- `update_streak`: given the existing row for the fingerprint (if any), the
new result (`success ≠ 0` is a success) and the current time, compute the row
written back.  Mirrors streak.rs: same result extends the streak and updates
the relevant longest counter; a different result resets to `+1`/`-1`; a new
fingerprint starts at `+1`/`-1`. -/
def update_streak (existing : Option StreakRow) (success : ℤ) (now : ℚ) :
    StreakRow :=
  match existing with
  | some r =>
    if success = r.last_result then
      if success ≠ 0 then
        let c := r.current_streak + 1
        ⟨c, max r.longest_success_streak c, r.longest_fail_streak, success, now⟩
      else
        let c := r.current_streak - 1
        ⟨c, r.longest_success_streak,
          max r.longest_fail_streak (c.natAbs : ℤ), success, now⟩
    else
      ⟨if success ≠ 0 then 1 else -1, r.longest_success_streak,
        r.longest_fail_streak, success, now⟩
  | none =>
    ⟨if success ≠ 0 then 1 else -1, if success ≠ 0 then 1 else 0,
      if success ≠ 0 then 0 else 1, success, now⟩

/-- Record a sequence of `(result, time)` pairs through the streak updater,
starting from no prior row. -/
def runStreak (results : List (ℤ × ℚ)) : Option StreakRow :=
  results.foldl (fun acc p => some (update_streak acc p.1 p.2)) none

/-! ## Decay and pruning (`src/zsh-tool-rs/src/alan/prune.rs`)

The tables are modelled by their claim-relevant columns: `observations` by
`(id, weight)` (`id` is the `TEXT PRIMARY KEY`), `ssh_observations` by
`(id, observation_id, weight)`, `meta` by key/value pairs.  The SQL decay
expression `weight * POWER(0.5, (JULIANDAY('now') - JULIANDAY(created_at)) *
24 / half_life)` depends on the wall clock and the row's `created_at`; it is
modelled by an arbitrary per-row multiplier, so every theorem below holds for
every possible decay outcome. -/

/-- An `observations` row (claim-relevant columns). -/
structure Obs where
  id : String
  weight : ℚ
deriving DecidableEq, Repr

/-- An `ssh_observations` row (claim-relevant columns). -/
structure SshObs where
  id : String
  observation_id : String
  weight : ℚ
deriving DecidableEq, Repr

/-- The ALAN database state used by `prune`. -/
structure AlanDb where
  observations : List Obs
  ssh_observations : List SshObs
  meta : List (String × String)
deriving DecidableEq, Repr

/-- `apply_decay` on `observations`: `UPDATE … SET weight = weight * decay
WHERE weight > threshold`. -/
def applyDecayObs (factor : Obs → ℚ) (threshold : ℚ) (rows : List Obs) :
    List Obs :=
  rows.map fun o =>
    if threshold < o.weight then { o with weight := o.weight * factor o }
    else o

/-- `apply_decay` on `ssh_observations`. -/
def applyDecaySsh (factor : SshObs → ℚ) (threshold : ℚ) (rows : List SshObs) :
    List SshObs :=
  rows.map fun s =>
    if threshold < s.weight then { s with weight := s.weight * factor s }
    else s

/-- `apply_decay`: decay both tables. -/
def apply_decay (db : AlanDb) (factObs : Obs → ℚ) (factSsh : SshObs → ℚ)
    (threshold : ℚ) : AlanDb :=
  { db with
      observations := applyDecayObs factObs threshold db.observations
      ssh_observations := applyDecaySsh factSsh threshold db.ssh_observations }

/-- `INSERT OR REPLACE INTO meta (key, value)`. -/
def metaReplace (m : List (String × String)) (k v : String) :
    List (String × String) :=
  m.filter (fun p => p.1 ≠ k) ++ [(k, v)]

/-- `SELECT id FROM observations ORDER BY weight DESC LIMIT max_entries`. -/
def topIds (rows : List Obs) (maxEntries : ℕ) : List String :=
  ((rows.mergeSort (fun a b => decide (b.weight ≤ a.weight))).take
    maxEntries).map (fun o => o.id)

/-- `prune`: decay, delete low-weight observations, keep only the top
`max_entries` by weight, delete low-weight SSH observations, delete orphaned
SSH observations, stamp `last_prune`. -/
def prune (db : AlanDb) (factObs : Obs → ℚ) (factSsh : SshObs → ℚ)
    (threshold : ℚ) (maxEntries : ℕ) (nowIso : String) : AlanDb :=
  let db1 := apply_decay db factObs factSsh threshold
  let obs2 := db1.observations.filter (fun o => ¬ o.weight < threshold)
  let keep := topIds obs2 maxEntries
  let obs3 := obs2.filter (fun o => o.id ∈ keep)
  let ssh2 := db1.ssh_observations.filter (fun s => ¬ s.weight < threshold)
  let ssh3 := ssh2.filter
    (fun s => s.observation_id ∈ obs3.map (fun o => o.id))
  { observations := obs3, ssh_observations := ssh3,
    meta := metaReplace db1.meta "last_prune" nowIso }

/-! ## Background-completion notifications (`src/zsh-tool-rs/src/serve/mod.rs`)

The notification machinery is modelled at the level of the shared state the
relevant handlers touch: the task registry (modelled as a finite map
`task_id ↦ is-running`, mirroring the `HashMap<String, TaskInfo>` with
`status == "running"`), and the completion-event queue (the task ids of the
queued `CompletedEvent`s; exit code and elapsed time only affect the text of
a `[notify]` line, not whether it appears).  The server handles one
`tools/call` at a time; the external nondeterminism — which background
children have exited when a call runs — is an explicit input `done` of the
step, and a poll's own `try_wait` result is the input `doneNow`. -/

/-- The server state relevant to notifications. -/
structure SrvState where
  tasks : String → Option Bool
  queue : List String

/-- The fresh server state (`ServerState::new`): no tasks, empty queue. -/
def initSrv : SrvState := ⟨fun _ => none, []⟩

/-- A dispatched tool request, as far as tasks and the event queue are
concerned.  `zsh id true` is a `zsh` call whose executor was still running
after `yield_after` (so a running task `id` is registered); `zsh id false`
covers immediate completion and spawn failure (no task registered, no event
enqueued — `finalize_task` is called with `suppress_notification = true`).
`poll id doneNow` is `zsh_poll`, `doneNow` the result of its own `try_wait`.
`other` covers the remaining tools, which neither touch the registry's
statuses nor the queue. -/
inductive ToolReq where
  | zsh (id : String) (registers : Bool)
  | poll (id : String) (doneNow : Bool)
  | kill (id : String)
  | other
deriving DecidableEq, Repr

/-- `check_and_finalize_background_tasks`: every running task whose child has
exited is marked completed and (via `finalize_task` with
`suppress_notification = false`) enqueues exactly one completion event.
Returns the updated registry and the enqueued event ids. -/
def sweep (tasks : String → Option Bool) (done : List String) :
    (String → Option Bool) × List String :=
  (fun i => if i ∈ done then (tasks i).map (fun _ => false) else tasks i,
    done.filter (fun i => tasks i = some true))

/-- The handler's effect on tasks and queue (serve/mod.rs):
`zsh` registers a running task (when the executor outlives `yield_after`);
`zsh_poll` of a finalized task returns the cached frame and
`suppress_event_for_task`; `zsh_poll` of a running task whose child just
exited finalizes it with `suppress_notification = true` and also suppresses;
`zsh_kill` of a running task removes it from the registry; everything else
leaves both untouched. -/
def handleTool (s : SrvState) : ToolReq → SrvState
  | .zsh id registers =>
    if registers then
      { s with tasks := fun i => if i = id then some true else s.tasks i }
    else s
  | .poll id doneNow =>
    match s.tasks id with
    | none => s
    | some false => { s with queue := s.queue.filter (fun e => e ≠ id) }
    | some true =>
      if doneNow then
        { tasks := fun i => if i = id then some false else s.tasks i,
          queue := s.queue.filter (fun e => e ≠ id) }
      else s
  | .kill id =>
    match s.tasks id with
    | some true =>
      { s with tasks := fun i => if i = id then none else s.tasks i }
    | _ => s
  | .other => s

/-- One `tools/call` (`handle_tool_call`): background sweep first, then the
handler, then `prepend_events` drains the whole queue into the response's
`[notify]` lines. -/
def toolCall (s : SrvState) (done : List String) (req : ToolReq) :
    SrvState × List String :=
  let swept := sweep s.tasks done
  let s1 : SrvState := ⟨swept.1, s.queue ++ swept.2⟩
  let s2 := handleTool s1 req
  (⟨s2.tasks, []⟩, s2.queue)

/-- The per-call record of a run: the events enqueued by the call's sweep,
the `[notify]` task ids of the call's response, and the request served. -/
structure CallLog where
  enq : List String
  notes : List String
  req : ToolReq

/-- Run a sequence of calls (each an exited-children set and a request) from
a server state, logging each call. -/
def runLog (s : SrvState) : List (List String × ToolReq) → List CallLog
  | [] => []
  | (done, req) :: rest =>
    let r := toolCall s done req
    ⟨(sweep s.tasks done).2, r.2, req⟩ :: runLog r.1 rest

/-- The ids of tasks registered by the calls. -/
def startIds (calls : List (List String × ToolReq)) : List String :=
  calls.filterMap fun c =>
    match c.2 with
    | .zsh i true => some i
    | _ => none

/-- Freshness of a run: registered task ids are pairwise distinct, and not
present in the starting registry (`handle_zsh` draws them from a fresh
UUID); each call's exited-children set lists each child once. -/
def FreshRun (s : SrvState) (calls : List (List String × ToolReq)) : Prop :=
  (startIds calls).Nodup ∧
  (∀ i ∈ startIds calls, s.tasks i = none) ∧
  (∀ c ∈ calls, c.1.Nodup)

/-- Whether a request is a direct `zsh_poll` of the given task. -/
def isPollOf (req : ToolReq) (id : String) : Prop :=
  match req with
  | .poll i _ => i = id
  | _ => False

instance (req : ToolReq) (id : String) : Decidable (isPollOf req id) := by
  unfold isPollOf
  cases req <;> infer_instance

/-- Total number of `[notify]` lines for a task over the logged responses. -/
def notifyTotal (logs : List CallLog) (id : String) : ℕ :=
  (logs.map (fun L => L.notes.count id)).sum

/-- A concrete three-call run: task `t1` is registered, completes in the
background during the second (unrelated) call, and a third call follows. -/
def c9Calls : List (List String × ToolReq) :=
  [([], .zsh "t1" true), (["t1"], .other), ([], .other)]

/-! ## Theorems -/

theorem record_timeout_fields (cb : CircuitBreaker) (h : String) (now : ℚ) :
    (cb.record_timeout h now).failure_threshold = cb.failure_threshold ∧
    (cb.record_timeout h now).sample_window = cb.sample_window ∧
    (cb.record_timeout h now).recovery_timeout = cb.recovery_timeout := by
  simp only [CircuitBreaker.record_timeout]
  split <;> exact ⟨rfl, rfl, rfl⟩

/-- When every already-recorded failure lies within the sample window of the
new timeout (and the window is positive), `record_timeout` retains everything:
the failure list is just extended by the new entry. -/
theorem record_timeout_failures_of_within (cb : CircuitBreaker) (h : String)
    (now : ℚ) (hsw : 0 < cb.sample_window)
    (hw : ∀ p ∈ cb.failures, withinWindow cb.sample_window p (now, h)) :
    (cb.record_timeout h now).failures = cb.failures ++ [(now, h)] := by
  have hfilter :
      (cb.failures ++ [(now, h)]).filter
        (fun p => decide (now - (cb.sample_window : ℚ) < p.1)) =
      cb.failures ++ [(now, h)] := by
    apply List.filter_eq_self.mpr
    intro a ha
    simp only [decide_eq_true_eq]
    rcases List.mem_append.mp ha with ha | ha
    · have h2 := hw a ha
      unfold withinWindow at h2
      linarith [h2.2]
    · have : a = (now, h) := by simpa using ha
      subst this
      have hq : (0 : ℚ) < (cb.sample_window : ℚ) := by exact_mod_cast hsw
      simpa using by linarith
  simp only [CircuitBreaker.record_timeout, hfilter]
  split <;> rfl

/-- Folding timeouts that are pairwise within the sample window retains every
failure; the configuration fields are untouched. -/
theorem recordTimeouts_failures :
    ∀ (ts : List (ℚ × String)) (cb : CircuitBreaker),
      0 < cb.sample_window →
      List.Pairwise (withinWindow cb.sample_window) (cb.failures ++ ts) →
      (recordTimeouts cb ts).failures = cb.failures ++ ts ∧
      (recordTimeouts cb ts).failure_threshold = cb.failure_threshold ∧
      (recordTimeouts cb ts).sample_window = cb.sample_window ∧
      (recordTimeouts cb ts).recovery_timeout = cb.recovery_timeout := by
  intro ts
  induction ts with
  | nil => intro cb _ _; simp [recordTimeouts]
  | cons p ts ih =>
    intro cb hsw hpair
    have hcross : ∀ q ∈ cb.failures, withinWindow cb.sample_window q p := by
      intro q hq
      have := (List.pairwise_append.mp hpair).2.2 q hq p (by simp)
      exact this
    have hstep : (cb.record_timeout p.2 p.1).failures = cb.failures ++ [p] := by
      simpa using record_timeout_failures_of_within cb p.2 p.1 hsw hcross
    obtain ⟨hft, hswf, hrt⟩ := record_timeout_fields cb p.2 p.1
    have hpair' :
        List.Pairwise (withinWindow (cb.record_timeout p.2 p.1).sample_window)
          ((cb.record_timeout p.2 p.1).failures ++ ts) := by
      rw [hswf, hstep, List.append_assoc]
      simpa using hpair
    have := ih (cb.record_timeout p.2 p.1) (hswf ▸ hsw) hpair'
    rcases this with ⟨h1, h2, h3, h4⟩
    have hcons : recordTimeouts cb (p :: ts) =
        recordTimeouts (cb.record_timeout p.2 p.1) ts := rfl
    rw [hcons]
    refine ⟨?_, by rw [h2, hft], by rw [h3, hswf], by rw [h4, hrt]⟩
    rw [h1, hstep, List.append_assoc]
    rfl

/-- When the retained failure count reaches the threshold, `record_timeout`
opens the circuit and stamps `opened_at` with the current time. -/
theorem record_timeout_opens (cb : CircuitBreaker) (h : String) (now : ℚ)
    (hsw : 0 < cb.sample_window)
    (hw : ∀ p ∈ cb.failures, withinWindow cb.sample_window p (now, h))
    (hth : cb.failure_threshold ≤ (cb.failures ++ [(now, h)]).length) :
    cb.record_timeout h now =
      { cb with
          failures := cb.failures ++ [(now, h)]
          last_failure := some now
          state := .Open
          opened_at := some now } := by
  have hfilter :
      (cb.failures ++ [(now, h)]).filter
        (fun p => decide (now - (cb.sample_window : ℚ) < p.1)) =
      cb.failures ++ [(now, h)] := by
    apply List.filter_eq_self.mpr
    intro a ha
    simp only [decide_eq_true_eq]
    rcases List.mem_append.mp ha with ha | ha
    · have h2 := hw a ha
      unfold withinWindow at h2
      linarith [h2.2]
    · have : a = (now, h) := by simpa using ha
      subst this
      have hq : (0 : ℚ) < (cb.sample_window : ℚ) := by exact_mod_cast hsw
      simpa using by linarith
  simp only [CircuitBreaker.record_timeout, hfilter]
  rw [if_pos hth]

/-- An `Open` breaker still inside the recovery timeout denies execution and is
left unchanged by `should_allow`. -/
theorem should_allow_open_denied (cb : CircuitBreaker) (now t : ℚ)
    (hs : cb.state = .Open) (ho : cb.opened_at = some t)
    (hlt : ¬ (cb.recovery_timeout : ℚ) < now - t) :
    (cb.should_allow now).1 = cb ∧ (cb.should_allow now).2.1 = false ∧
    ((cb.should_allow now).2.2).isSome = true := by
  obtain ⟨st, f, lf, oa, ft, rt, sw⟩ := cb
  simp only at hs ho hlt
  subst hs; subst ho
  simp only [CircuitBreaker.should_allow]
  rw [if_neg hlt]
  exact ⟨rfl, rfl, rfl⟩

/-- An `Open` breaker past the recovery timeout transitions to `HalfOpen` and
allows the call with the half-open message. -/
theorem should_allow_open_recover (cb : CircuitBreaker) (now t : ℚ)
    (hs : cb.state = .Open) (ho : cb.opened_at = some t)
    (hlt : (cb.recovery_timeout : ℚ) < now - t) :
    cb.should_allow now =
      ({ cb with state := .HalfOpen }, true,
        some "NEVERHANG: Circuit half-open, testing recovery") := by
  obtain ⟨st, f, lf, oa, ft, rt, sw⟩ := cb
  simp only at hs ho hlt
  subst hs; subst ho
  simp only [CircuitBreaker.should_allow]
  rw [if_pos hlt]

/-- `record_success` on a `HalfOpen` breaker closes it and clears failures. -/
theorem record_success_halfOpen (cb : CircuitBreaker)
    (hs : cb.state = .HalfOpen) :
    cb.record_success = { cb with state := .Closed, failures := [] } := by
  unfold CircuitBreaker.record_success
  rw [if_pos hs]

/-- Claim C1: a breaker started `Closed` with parameters
`(failure_threshold, recovery_timeout, sample_window)`, after
`failure_threshold` timeouts whose timestamps lie pairwise within the sample
window, denies `should_allow` while at most `recovery_timeout` seconds have
passed since opening; once strictly more than `recovery_timeout` seconds have
passed, the next `should_allow` returns `(true, half-open message)` and moves
the state to `HalfOpen`; a subsequent `record_success` sets the state to
`Closed` and empties the failures list. -/
theorem circuit_open_halfopen_close
    (ft rt sw : ℕ) (ts : List (ℚ × String)) (hsw : 0 < sw)
    (hlen : ts.length = ft)
    (hpair : List.Pairwise (withinWindow sw) ts)
    (hne : ts ≠ [])
    (now1 now2 : ℚ)
    (h1 : now1 - (ts.getLast hne).1 ≤ (rt : ℚ))
    (h2 : (rt : ℚ) < now2 - (ts.getLast hne).1) :
    C1Post ft rt sw ts now1 now2 := by
  set l := ts.dropLast with hl
  set x := ts.getLast hne with hx
  have hts : l ++ [x] = ts := List.dropLast_append_getLast hne
  have hpair' : List.Pairwise (withinWindow sw) (l ++ [x]) := by rw [hts]; exact hpair
  have hPl : List.Pairwise (withinWindow sw) l := (List.pairwise_append.mp hpair').1
  have hcross : ∀ a ∈ l, withinWindow sw a x :=
    fun a ha => (List.pairwise_append.mp hpair').2.2 a ha x (by simp)
  -- fold over all but the last timeout
  have hnew : (CircuitBreaker.new ft rt sw).failures ++ l = l := by
    simp [CircuitBreaker.new]
  have hfold := recordTimeouts_failures l (CircuitBreaker.new ft rt sw)
    (by simpa [CircuitBreaker.new] using hsw) (by rw [hnew]; exact hPl)
  obtain ⟨hf, hthr, hswf, hrtf⟩ := hfold
  set r : CircuitBreaker := recordTimeouts (CircuitBreaker.new ft rt sw) l with hr
  have hf' : r.failures = l := by rw [hf, hnew]
  have hthr' : r.failure_threshold = ft := by rw [hthr]; rfl
  have hswf' : r.sample_window = sw := by rw [hswf]; rfl
  have hrtf' : r.recovery_timeout = rt := by rw [hrtf]; rfl
  -- the final timeout opens the circuit
  have hsplit : recordTimeouts (CircuitBreaker.new ft rt sw) ts =
      r.record_timeout x.2 x.1 := by
    rw [← hts]
    unfold recordTimeouts
    rw [List.foldl_append]
    rfl
  have hwx : ∀ p ∈ r.failures, withinWindow r.sample_window p (x.1, x.2) := by
    intro p hp
    rw [hf'] at hp
    rw [hswf']
    simpa using hcross p hp
  have hth : r.failure_threshold ≤ (r.failures ++ [(x.1, x.2)]).length := by
    rw [hthr', hf']
    have : l.length + 1 = ts.length := by
      rw [← hts]; simp
    simp only [List.length_append, List.length_singleton]
    omega
  have hopen := record_timeout_opens r x.2 x.1 (by rw [hswf']; exact hsw) hwx hth
  set cb1 : CircuitBreaker := recordTimeouts (CircuitBreaker.new ft rt sw) ts with hcb1
  have hstate : cb1.state = .Open := by rw [hsplit, hopen]
  have hoa : cb1.opened_at = some x.1 := by rw [hsplit, hopen]
  have hrt1 : cb1.recovery_timeout = rt := by rw [hsplit, hopen]; exact hrtf'
  -- first should_allow: denied
  have hden := should_allow_open_denied cb1 now1 x.1 hstate hoa
    (by rw [hrt1]; exact not_lt.mpr (by linarith))
  -- second should_allow: recovery
  have hrec := should_allow_open_recover cb1 now2 x.1 hstate hoa
    (by rw [hrt1]; linarith)
  have hhalf : (cb1.should_allow now2).1 = { cb1 with state := .HalfOpen } := by
    rw [hrec]
  have hhs : ({ cb1 with state := .HalfOpen } : CircuitBreaker).state
      = .HalfOpen := rfl
  have hsucc := record_success_halfOpen ({ cb1 with state := .HalfOpen }) hhs
  refine ⟨hden.1, hden.2.1, hden.2.2, ?_, ?_, ?_, ?_, ?_⟩
  · rw [hrec]
  · rw [hrec]
  · rw [hhalf]
  · rw [hhalf, hsucc]
  · rw [hhalf, hsucc]

/-- Witness for `circuit_open_halfopen_close` at threshold 2, recovery 5 s,
window 10 s, timeouts at times 0 and 1, probes at times 6 and 7. -/
theorem circuit_open_halfopen_close_witness :
    C1Post 2 5 10 [((0 : ℚ), "a"), (1, "b")] 6 7 :=
  circuit_open_halfopen_close 2 5 10 [((0 : ℚ), "a"), (1, "b")]
    (by decide) (by decide)
    (by constructor <;> simp [withinWindow])
    (by decide) 6 7 (by norm_num [List.getLast]) (by norm_num [List.getLast])

theorem c2_eval1 : (CircuitBreaker.new 1 0 10).record_timeout "h" 0 =
    ⟨.Open, [(0, "h")], some 0, some 0, 1, 0, 10⟩ := by
  norm_num [CircuitBreaker.record_timeout, CircuitBreaker.new, List.filter]

theorem c2_eval2 : c2Breaker = ⟨.HalfOpen, [(0, "h")], some 0, some 0, 1, 0, 10⟩ := by
  rw [c2Breaker, c2_eval1]
  norm_num [CircuitBreaker.should_allow]

/-- Claim C2 as stated is false: in the reachable breaker `c2Breaker` the
state is `HalfOpen` while `opened_at` is still `some 0`, so `state = Open`
is not equivalent to `opened_at` being set. -/
theorem circuit_open_iff_opened_at_counterexample :
    ¬ (∀ cb : CircuitBreaker, ReachableCB cb →
        (cb.state = .Open ↔ cb.opened_at.isSome = true)) := by
  intro hclaim
  have h := hclaim c2Breaker
    (ReachableCB.allow 1 (ReachableCB.timeout "h" 0 (ReachableCB.init 1 0 10)))
  have h3 := h.mpr (by rw [c2_eval2]; rfl)
  rw [c2_eval2] at h3
  exact absurd h3 (by simp)

/-- Claim C2, amended: in every reachable breaker state, `state = Open`
implies that `opened_at` is set.  (The converse fails: the `Open → HalfOpen`
transition of `should_allow` and the `HalfOpen → Closed` transition of
`record_success` leave `opened_at` set; only `reset` clears it.) -/
theorem circuit_open_implies_opened_at (cb : CircuitBreaker)
    (h : ReachableCB cb) : cb.state = .Open → cb.opened_at.isSome = true := by
  induction h with
  | init ft rt sw =>
    intro ho
    exact absurd ho (by simp [CircuitBreaker.new])
  | timeout hsh now _ ih =>
    rename_i cb' _
    simp only [CircuitBreaker.record_timeout]
    split
    · intro _; rfl
    · exact ih
  | success _ ih =>
    rename_i cb' _
    simp only [CircuitBreaker.record_success]
    split
    · intro ho; exact absurd ho (by simp)
    · exact ih
  | allow now _ ih =>
    rename_i cb' _
    obtain ⟨st, f, lf, oa, ft, rt, sw⟩ := cb'
    cases st with
    | Closed => intro ho; exact absurd ho (by simp [CircuitBreaker.should_allow])
    | HalfOpen => intro ho; exact absurd ho (by simp [CircuitBreaker.should_allow])
    | Open =>
      cases oa with
      | none => intro _; exact ih rfl
      | some t =>
        simp only [CircuitBreaker.should_allow]
        split
        · intro ho; exact absurd ho (by simp)
        · intro _; rfl
  | rst _ ih =>
    intro ho
    exact absurd ho (by simp [CircuitBreaker.reset])

/-- Witness: a breaker opened by a single timeout is reachable, `Open`, and
has `opened_at` set. -/
theorem circuit_open_implies_opened_at_witness :
    ReachableCB ((CircuitBreaker.new 1 0 10).record_timeout "h" 0) ∧
    ((CircuitBreaker.new 1 0 10).record_timeout "h" 0).state = .Open ∧
    ((CircuitBreaker.new 1 0 10).record_timeout "h" 0).opened_at.isSome = true :=
  ⟨ReachableCB.timeout "h" 0 (ReachableCB.init 1 0 10), by rw [c2_eval1],
    circuit_open_implies_opened_at _
      (ReachableCB.timeout "h" 0 (ReachableCB.init 1 0 10)) (by rw [c2_eval1])⟩

/-- Claim C10: when the breaker is `Closed` or `Open`, `record_success` is the
identity — every field keeps its prior value, so a success never closes an
`Open` breaker; only the `HalfOpen → Closed` transition exists. -/
theorem record_success_frame (cb : CircuitBreaker)
    (h : cb.state = .Closed ∨ cb.state = .Open) : cb.record_success = cb := by
  unfold CircuitBreaker.record_success
  rw [if_neg]
  rcases h with h | h <;> simp [h]

/-- Witness: `record_success` leaves a fresh (`Closed`) breaker unchanged. -/
theorem record_success_frame_witness :
    ((CircuitBreaker.new 3 300 3600).state = .Closed ∨
      (CircuitBreaker.new 3 300 3600).state = .Open) ∧
    (CircuitBreaker.new 3 300 3600).record_success =
      CircuitBreaker.new 3 300 3600 :=
  ⟨Or.inl rfl, record_success_frame _ (Or.inl rfl)⟩

theorem collapseWs_nil : collapseWs [] = [] := by simp [collapseWs]

theorem wsWords_nil : wsWords [] = [] := by simp [wsWords]

theorem dropWhile_head_false {p : Char → Bool} :
    ∀ (l : List Char) {c : Char} {cs : List Char},
      l.dropWhile p = c :: cs → p c = false := by
  intro l
  induction l with
  | nil => intro c cs h; simp at h
  | cons a l ih =>
    intro c cs h
    rw [List.dropWhile_cons] at h
    by_cases hp : p a
    · rw [if_pos hp] at h; exact ih h
    · rw [if_neg hp] at h
      injection h with h1 _
      subst h1
      simp only [Bool.not_eq_true] at hp
      exact hp

theorem dropWhile_append_all {p : Char → Bool} :
    ∀ {a : List Char} (b : List Char), (∀ x ∈ a, p x = true) →
      (a ++ b).dropWhile p = b.dropWhile p := by
  intro a
  induction a with
  | nil => intro b _; rfl
  | cons x a ih =>
    intro b h
    rw [List.cons_append, List.dropWhile_cons, if_pos (h x (by simp))]
    exact ih b (fun y hy => h y (by simp [hy]))

theorem dropWhile_append_ne {p : Char → Bool} :
    ∀ {a : List Char} (b : List Char), a.dropWhile p ≠ [] →
      (a ++ b).dropWhile p = a.dropWhile p ++ b := by
  intro a
  induction a with
  | nil => intro b h; exact absurd rfl h
  | cons x a ih =>
    intro b h
    rw [List.dropWhile_cons] at h ⊢
    by_cases hp : p x
    · rw [if_pos hp] at h ⊢
      rw [List.cons_append, List.dropWhile_cons, if_pos hp]
      exact ih b h
    · rw [if_neg hp]
      rw [List.cons_append, List.dropWhile_cons, if_neg hp]

theorem trimRight_append_allWs {w r : List Char} (h : ∀ x ∈ r, isWs x = true) :
    trimRight (w ++ r) = trimRight w := by
  unfold trimRight
  rw [List.reverse_append, dropWhile_append_all _ (fun x hx => h x (by simpa using hx))]

theorem trimRight_allNonWs {w : List Char} (h : ∀ x ∈ w, isWs x = false) :
    trimRight w = w := by
  unfold trimRight
  cases hw : w.reverse with
  | nil => simpa using congrArg List.reverse hw
  | cons a as =>
    rw [List.dropWhile_cons, if_neg]
    · rw [← hw, List.reverse_reverse]
    · have : a ∈ w := by
        rw [← List.mem_reverse, hw]; simp
      simp [h a this]

theorem trimRight_append_ne {a b : List Char} (h : trimRight b ≠ []) :
    trimRight (a ++ b) = a ++ trimRight b := by
  have hb : b.reverse.dropWhile isWs ≠ [] := by
    intro hnil
    exact h (by unfold trimRight; rw [hnil]; rfl)
  unfold trimRight
  rw [List.reverse_append, dropWhile_append_ne _ hb, List.reverse_append,
    List.reverse_reverse]

theorem trimRight_cons_nonWs {x : Char} {xs : List Char} (h : isWs x = false) :
    trimRight (x :: xs) = x :: trimRight xs := by
  by_cases hxs : trimRight xs = []
  · have hall : ∀ y ∈ xs, isWs y = true := by
      intro y hy
      have : xs.reverse.dropWhile isWs = [] := by
        have := congrArg List.reverse hxs
        unfold trimRight at this
        simpa using this
      have := List.dropWhile_eq_nil_iff.mp this y (by simpa using hy)
      exact this
    have h1 : trimRight (x :: xs) = trimRight [x] :=
      trimRight_append_allWs (w := [x]) hall
    have h2 : trimRight [x] = [x] := trimRight_allNonWs (by simpa using h)
    rw [h1, h2, hxs]
  · have := trimRight_append_ne (a := [x]) hxs
    simpa using this

theorem collapseWs_append_nonWs {w t : List Char}
    (h : ∀ x ∈ w, isWs x = false) :
    collapseWs (w ++ t) = w ++ collapseWs t := by
  induction w with
  | nil => rfl
  | cons a w ih =>
    rw [List.cons_append]
    rw [show collapseWs (a :: (w ++ t)) =
      if isWs a then ' ' :: collapseWs ((w ++ t).dropWhile isWs)
      else a :: collapseWs (w ++ t) from by rw [collapseWs]]
    rw [if_neg (by simp [h a (by simp)])]
    rw [ih (fun y hy => h y (by simp [hy]))]
    rfl

theorem collapseWs_allNonWs {w : List Char} (h : ∀ x ∈ w, isWs x = false) :
    collapseWs w = w := by
  have := collapseWs_append_nonWs (t := []) h
  simpa [collapseWs_nil] using this

theorem wsWords_cons_ws {c : Char} {cs : List Char} (h : isWs c = true) :
    wsWords (c :: cs) = wsWords cs := by
  rw [wsWords, if_pos h]

theorem wsWords_append_allWs {a b : List Char} (h : ∀ x ∈ a, isWs x = true) :
    wsWords (a ++ b) = wsWords b := by
  induction a with
  | nil => rfl
  | cons x a ih =>
    rw [List.cons_append, wsWords_cons_ws (h x (by simp))]
    exact ih (fun y hy => h y (by simp [hy]))

theorem wsWords_cons_nonWs {c : Char} {cs : List Char} (h : isWs c = false) :
    wsWords (c :: cs) =
      (c :: cs.takeWhile (fun x => !isWs x)) ::
        wsWords (cs.dropWhile (fun x => !isWs x)) := by
  rw [wsWords, if_neg (by simp [h])]

theorem joinWords_cons_cons (w a : List Char) (as : List (List Char)) :
    joinWords (w :: a :: as) = w ++ ' ' :: joinWords (a :: as) := by
  rw [joinWords]
  simp

/-- Canonical form of the trim-and-collapse normalization pass: trimming and
collapsing whitespace runs yields exactly the whitespace-split words joined by
single spaces.  Consequently that pass depends only on `wsWords`. -/
theorem collapseWs_trim_eq : ∀ l : List Char,
    collapseWs (trim l) = joinWords (wsWords l) := by
  have H : ∀ n, ∀ l : List Char, l.length ≤ n →
      collapseWs (trim l) = joinWords (wsWords l) := by
    intro n
    induction n with
    | zero =>
      intro l hl
      have : l = [] := List.eq_nil_of_length_eq_zero (Nat.le_zero.mp hl)
      subst this
      rw [show trim [] = [] from rfl, collapseWs_nil, wsWords_nil]
      rfl
    | succ n ih =>
      intro l hl
      cases l with
      | nil =>
        rw [show trim [] = [] from rfl, collapseWs_nil, wsWords_nil]
        rfl
      | cons c cs =>
        have hcs : cs.length ≤ n := by
          simpa using Nat.le_of_succ_le_succ hl
        by_cases hc : isWs c
        · have h1 : trim (c :: cs) = trim cs := by
            unfold trim trimLeft
            rw [List.dropWhile_cons, if_pos hc]
          rw [h1, wsWords_cons_ws hc]
          exact ih cs hcs
        · have hc' : isWs c = false := by simpa using hc
          set w : List Char := c :: cs.takeWhile (fun x => !isWs x) with hwdef
          set r : List Char := cs.dropWhile (fun x => !isWs x) with hrdef
          have hwr : c :: cs = w ++ r := by
            rw [hwdef, hrdef, List.cons_append, List.takeWhile_append_dropWhile]
          have hw : ∀ x ∈ w, isWs x = false := by
            intro x hx
            rw [hwdef] at hx
            rcases List.mem_cons.mp hx with hx | hx
            · subst hx; exact hc'
            · have := List.mem_takeWhile_imp hx
              simpa using this
          have hwords : wsWords (c :: cs) = w :: wsWords r :=
            wsWords_cons_nonWs hc'
          have htl : trimLeft (c :: cs) = c :: cs := by
            unfold trimLeft
            rw [List.dropWhile_cons, if_neg (by simp [hc'])]
          have htrim : trim (c :: cs) = trimRight (w ++ r) := by
            unfold trim
            rw [htl, hwr]
          cases hr : r with
          | nil =>
            have hcw : c :: cs = w := by rw [hwr, hr, List.append_nil]
            rw [htrim, hr, List.append_nil, trimRight_allNonWs hw,
              collapseWs_allNonWs hw, hwords, hr, wsWords_nil]
            rfl
          | cons d ds =>
            have hd : isWs d = true := by
              have := dropWhile_head_false (p := fun x => !isWs x) _ (hrdef ▸ hr)
              simpa using this
            set tk : List Char := r.takeWhile isWs with htkdef
            set r' : List Char := r.dropWhile isWs with hr2def
            have hrr : tk ++ r' = r := by
              rw [htkdef, hr2def, List.takeWhile_append_dropWhile]
            have htk : ∀ x ∈ tk, isWs x = true := by
              intro x hx
              exact List.mem_takeWhile_imp (htkdef ▸ hx)
            have hwsr : wsWords r = wsWords r' := by
              rw [← hrr]
              exact wsWords_append_allWs htk
            cases hr' : r' with
            | nil =>
              have hallr : ∀ x ∈ r, isWs x = true := by
                intro x hx
                rw [← hrr, hr', List.append_nil] at hx
                exact htk x hx
              rw [htrim, trimRight_append_allWs hallr, trimRight_allNonWs hw,
                collapseWs_allNonWs hw, hwords, hwsr, hr', wsWords_nil]
              rfl
            | cons e es =>
              have he : isWs e = false := dropWhile_head_false _ (hr2def ▸ hr')
              have htre : trimRight r' = e :: trimRight es := by
                rw [hr']; exact trimRight_cons_nonWs he
              have htr' : trimRight r' ≠ [] := by rw [htre]; simp
              have htr : trimRight r = tk ++ trimRight r' := by
                rw [← hrr]
                exact trimRight_append_ne htr'
              have htrne : trimRight r ≠ [] := by
                rw [htr, htre]
                simp
              have step1 : trim (c :: cs) = w ++ (tk ++ trimRight r') := by
                rw [htrim, trimRight_append_ne htrne, htr]
              have htk2 : tk = d :: ds.takeWhile isWs := by
                rw [htkdef, hr]
                rw [List.takeWhile_cons, if_pos hd]
              have step2 : collapseWs (w ++ (tk ++ trimRight r')) =
                  w ++ collapseWs (tk ++ trimRight r') :=
                collapseWs_append_nonWs hw
              have step3 : collapseWs (tk ++ trimRight r') =
                  ' ' :: collapseWs ((ds.takeWhile isWs ++ trimRight r').dropWhile isWs) := by
                rw [htk2, List.cons_append]
                rw [show collapseWs (d :: (ds.takeWhile isWs ++ trimRight r')) =
                  if isWs d then ' ' :: collapseWs ((ds.takeWhile isWs ++ trimRight r').dropWhile isWs)
                  else d :: collapseWs (ds.takeWhile isWs ++ trimRight r') from by rw [collapseWs]]
                rw [if_pos hd]
              have step4 : (ds.takeWhile isWs ++ trimRight r').dropWhile isWs =
                  trimRight r' := by
                rw [dropWhile_append_all _ (fun x hx => List.mem_takeWhile_imp hx)]
                rw [htre, List.dropWhile_cons, if_neg (by simp [he])]
              have hr'len : r'.length ≤ n := by
                have h1 : r'.length ≤ r.length := by
                  rw [hr2def]; exact (List.dropWhile_sublist _).length_le
                have h2 : r.length ≤ cs.length := by
                  rw [hrdef]; exact (List.dropWhile_sublist _).length_le
                omega
              have htlr' : trimLeft r' = r' := by
                unfold trimLeft
                rw [hr', List.dropWhile_cons, if_neg (by simp [he])]
              have hihr' : collapseWs (trimRight r') = joinWords (wsWords r') := by
                have := ih r' hr'len
                unfold trim at this
                rw [htlr'] at this
                exact this
              have hwne : wsWords r' = (e :: es.takeWhile (fun x => !isWs x)) ::
                  wsWords (es.dropWhile (fun x => !isWs x)) := by
                rw [hr']
                exact wsWords_cons_nonWs he
              rw [step1, step2, step3, step4, hihr', hwords, hwsr, hwne,
                joinWords_cons_cons]

  intro l
  exact H l.length l le_rfl

theorem afterChar_length (q : Char) :
    ∀ (l rest : List Char), afterChar q l = some rest →
      rest.length < l.length := by
  intro l
  induction l with
  | nil => intro rest h; simp [afterChar] at h
  | cons c cs ih =>
    intro rest h
    rw [afterChar] at h
    by_cases hc : c = q
    · rw [if_pos hc] at h
      injection h with h
      subst h
      simp
    · rw [if_neg hc] at h
      have := ih rest h
      simp only [List.length_cons]
      omega

/-- Claim C4: commands that differ only up to the hashing normalization share
a fingerprint.  First conjunct: the spec's normalization pipeline (trim,
collapse whitespace, empty out quoted spans, `N` for bare digit runs) decides
the hash — commands with equal normal forms hash identically.  Second
conjunct: in particular, commands that differ only in whitespace (the same
whitespace-split words) hash identically. -/
theorem hash_command_respects_normalization :
    (∀ c1 c2 : String, normalizeCommand c1.data = normalizeCommand c2.data →
      hashCommand c1 = hashCommand c2) ∧
    (∀ c1 c2 : String, wsWords c1.data = wsWords c2.data →
      hashCommand c1 = hashCommand c2) := by
  constructor
  · intro c1 c2 h
    unfold hashCommand hash_command
    rw [h]
  · intro c1 c2 h
    have h2 : collapseWs (trim c1.data) = collapseWs (trim c2.data) := by
      rw [collapseWs_trim_eq, collapseWs_trim_eq, h]
    unfold hashCommand hash_command normalizeCommand
    rw [h2]

/-- Witness: `ls "a" 1` and `  ls  "b"  2` normalize identically (hence hash
identically), and `ls  x` and `ls x` have the same whitespace-split words
(hence hash identically). -/
theorem hash_command_respects_normalization_witness :
    (normalizeCommand "ls \"a\" 1".data =
        normalizeCommand "  ls  \"b\"  2".data ∧
      hashCommand "ls \"a\" 1" = hashCommand "  ls  \"b\"  2") ∧
    (wsWords "ls  x".data = wsWords "ls x".data ∧
      hashCommand "ls  x" = hashCommand "ls x") := by
  have h1 : normalizeCommand "ls \"a\" 1".data =
      normalizeCommand "  ls  \"b\"  2".data := by
    simp [normalizeCommand, replaceBareNumbers, replaceQuoted, collapseWs,
      trim, trimLeft, trimRight, isWs, afterChar, isDigitChar, isWordChar]
  have h2 : wsWords "ls  x".data = wsWords "ls x".data := by
    simp [wsWords, isWs]
  exact ⟨⟨h1, hash_command_respects_normalization.1 _ _ h1⟩,
    ⟨h2, hash_command_respects_normalization.2 _ _ h2⟩⟩

theorem splitOnChar_ne_nil (sep : Char) (l : List Char) :
    splitOnChar sep l ≠ [] := by
  cases l with
  | nil => simp [splitOnChar]
  | cons c cs =>
    rw [splitOnChar]
    by_cases h : c = sep
    · rw [if_pos h]; simp
    · rw [if_neg h]
      cases hs : splitOnChar sep cs <;> simp [consHead]

/-- Phase 2 of the loop (after the base is found) is the wildcard tail. -/
theorem starAcc_cons (a : List Char) (acc : List (List Char)) :
    starAcc (a :: acc) = (a == ['*']) := rfl

theorem templateGo_found (rest : List (List Char)) :
    ∀ (b : Bool) (acc : List (List Char)),
      templateGo true b acc rest = acc.reverse ++ wildTail (starAcc acc) rest := by
  induction rest with
  | nil => intro b acc; simp [templateGo, wildTail]
  | cons p rest ih =>
    intro b acc
    by_cases hf : isFlagTok p
    · simp [templateGo, wildTail, hf, ih, starAcc_cons]
    · by_cases hs : starAcc acc
      · simp [templateGo, wildTail, hf, hs, ih]
      · simp [templateGo, wildTail, hf, hs, ih, starAcc_cons]

/-- Phase 1 of the loop matches the amended base scan. -/
theorem templateGo_scan (rest : List (List Char)) :
    ∀ (p : List Char) (f : Bool) (acc : List (List Char)),
      templateGo false f acc (p :: rest) =
        acc.reverse ++ p :: amendedScan f p rest := by
  induction rest with
  | nil =>
    intro p f acc
    by_cases hk : knownBase p <;> by_cases hff : f <;>
      simp [templateGo, amendedScan, hk, hff]
  | cons t' rest' ih =>
    intro p f acc
    by_cases hk : knownBase p
    · by_cases hf : isFlagTok t'
      · rw [show templateGo false f acc (p :: t' :: rest') =
          templateGo true false (p :: acc) (t' :: rest') from by
            simp [templateGo, hk, hf]]
        rw [templateGo_found]
        simp [amendedScan, hk, hf, starAcc_cons]
      · rw [show templateGo false f acc (p :: t' :: rest') =
          templateGo false false (p :: acc) (t' :: rest') from by
            simp [templateGo, hk, hf]]
        rw [ih]
        simp [amendedScan, hk, hf]
    · by_cases hff : f
      · rw [show templateGo false f acc (p :: t' :: rest') =
          templateGo false false (p :: acc) (t' :: rest') from by
            simp [templateGo, hk, hff]]
        rw [ih]
        simp [amendedScan, hk, hff]
      · rw [show templateGo false f acc (p :: t' :: rest') =
          templateGo true false (p :: acc) (t' :: rest') from by
            simp [templateGo, hk, hff]]
        rw [templateGo_found]
        simp [amendedScan, hk, hff, starAcc_cons]

/-- Claim C3 as stated is false on the code: for `foo bar baz` (first token
not in the known set) the code emits the second token `bar` verbatim — the
"after 2 parts, assume we have base" rule — where the claim collapses it into
`*`; for `git git push x` the code keeps scanning for subcommands after
`git git`, where the claim emits at most base and one subcommand. -/
theorem template_command_counterexample :
    template_command "foo bar baz" = "foo bar *" ∧
    claimTemplate "foo bar baz" = "foo *" ∧
    template_command "foo bar baz" ≠ claimTemplate "foo bar baz" ∧
    template_command "git git push x" = "git git push *" ∧
    claimTemplate "git git push x" = "git git *" := by
  have h1 : collapseWs (trim "foo bar baz".data) = "foo bar baz".data := by
    simp [collapseWs, trim, trimLeft, trimRight, isWs]
  have h2 : collapseWs (trim "git git push x".data) = "git git push x".data := by
    simp [collapseWs, trim, trimLeft, trimRight, isWs]
  refine ⟨?_, ?_, ?_, ?_, ?_⟩
  · rw [template_command, h1]; decide
  · rw [claimTemplate, h1]; decide
  · rw [template_command, claimTemplate, h1]; decide
  · rw [template_command, h2]; decide
  · rw [claimTemplate, h2]; decide

/-- Claim C3, amended: the template emits the first token; after an emitted
token in the known subcommand-taking set followed by a non-flag token, that
next token is also emitted verbatim and the subcommand scan continues from
it; when the first token is not in the known set, the second token is also
emitted verbatim; thereafter flag tokens are emitted verbatim and every
maximal run of positional tokens collapses to a single `*` (suppressed
directly after a literal `*` token). -/
theorem template_command_amended (s : String) :
    template_command s = amendedTemplate s := by
  rw [template_command, amendedTemplate]
  cases hp : splitOnChar ' ' (collapseWs (trim s.data)) with
  | nil => exact absurd hp (splitOnChar_ne_nil _ _)
  | cons t0 rest =>
    rw [if_neg (by simp)]
    rw [templateGo_scan, amendedTemplateTokens]
    rfl

theorem stringMk_eq_empty (l : List Char) : (String.mk l = "") ↔ l = [] := by
  rw [show ("" : String) = String.mk [] from rfl]
  exact ⟨fun h => by injection h, fun h => by rw [h]⟩

theorem consAll_consHead (cur : List Char) (c : Char)
    (L : List (List Char)) :
    consAll cur (consHead c L) = consAll (cur ++ [c]) L := by
  cases L <;> simp [consAll, consHead]

theorem pipeChunks_ne_nil :
    ∀ (l : List Char) (sq dq esc : Bool), pipeChunks sq dq esc l ≠ [] := by
  intro l
  induction l with
  | nil => intro sq dq esc; simp [pipeChunks]
  | cons c cs ih =>
    intro sq dq esc
    rw [pipeChunks]
    split
    · cases h : pipeChunks sq dq false cs <;> simp [consHead]
    · split
      · cases h : pipeChunks sq dq true cs <;> simp [consHead]
      · split
        · cases h : pipeChunks (!sq) dq false cs <;> simp [consHead]
        · split
          · cases h : pipeChunks sq (!dq) false cs <;> simp [consHead]
          · split
            · split
              · cases h : pipeChunks sq dq false cs.tail <;>
                  simp [consHead]
              · simp
            · cases h : pipeChunks sq dq false cs <;> simp [consHead]

/-- The scanning loop computes exactly: the chunks of the remaining input
(with the current segment prepended into the first chunk), trimmed, the empty
ones dropped, appended to the segments already produced. -/
theorem go_eq_chunks :
    ∀ (n : ℕ) (l : List Char), l.length ≤ n →
    ∀ (segs : List String) (cur : List Char) (sq dq esc : Bool),
      parse_pipeline_go segs cur sq dq esc l =
        segs ++ ((consAll cur (pipeChunks sq dq esc l)).map
          (fun x => String.mk (trim x))).filter (fun x => x ≠ "") := by
  intro n
  induction n with
  | zero =>
    intro l hl segs cur sq dq esc
    have : l = [] := List.eq_nil_of_length_eq_zero (Nat.le_zero.mp hl)
    subst this
    by_cases h : trim cur = [] <;>
      simp [parse_pipeline_go, pipeChunks, consAll, h, stringMk_eq_empty]
  | succ n ih =>
    intro l hl segs cur sq dq esc
    cases l with
    | nil =>
      by_cases h : trim cur = [] <;>
        simp [parse_pipeline_go, pipeChunks, consAll, h, stringMk_eq_empty]
    | cons c cs =>
      have hcs : cs.length ≤ n := by simpa using Nat.le_of_succ_le_succ hl
      have htail : cs.tail.length ≤ n := by
        have := List.length_tail cs
        omega
      by_cases hesc : esc = true
      · rw [show parse_pipeline_go segs cur sq dq esc (c :: cs) =
            parse_pipeline_go segs (cur ++ [c]) sq dq false cs from by
              rw [parse_pipeline_go]; simp [hesc],
          show pipeChunks sq dq esc (c :: cs) =
            consHead c (pipeChunks sq dq false cs) from by
              rw [pipeChunks]; simp [hesc],
          ih cs hcs, consAll_consHead]
      · by_cases hbs : c = '\\'
        · rw [show parse_pipeline_go segs cur sq dq esc (c :: cs) =
              parse_pipeline_go segs (cur ++ [c]) sq dq true cs from by
                rw [parse_pipeline_go]; simp [hesc, hbs],
            show pipeChunks sq dq esc (c :: cs) =
              consHead c (pipeChunks sq dq true cs) from by
                rw [pipeChunks]; simp [hesc, hbs],
            ih cs hcs, consAll_consHead]
        · by_cases hsq : c = '\'' ∧ dq = false
          · rw [show parse_pipeline_go segs cur sq dq esc (c :: cs) =
                parse_pipeline_go segs (cur ++ [c]) (!sq) dq false cs from by
                  rw [parse_pipeline_go]; simp [hesc, hbs, hsq],
              show pipeChunks sq dq esc (c :: cs) =
                consHead c (pipeChunks (!sq) dq false cs) from by
                  rw [pipeChunks]; simp [hesc, hbs, hsq],
              ih cs hcs, consAll_consHead]
          · by_cases hdq : c = '"' ∧ sq = false
            · rw [show parse_pipeline_go segs cur sq dq esc (c :: cs) =
                  parse_pipeline_go segs (cur ++ [c]) sq (!dq) false cs from by
                    rw [parse_pipeline_go]; simp [hesc, hbs, hsq, hdq],
                show pipeChunks sq dq esc (c :: cs) =
                  consHead c (pipeChunks sq (!dq) false cs) from by
                    rw [pipeChunks]; simp [hesc, hbs, hsq, hdq],
                ih cs hcs, consAll_consHead]
            · by_cases hp : c = '|' ∧ sq = false ∧ dq = false
              · by_cases hh : cs.head? = some '|'
                · rw [show parse_pipeline_go segs cur sq dq esc (c :: cs) =
                      parse_pipeline_go segs (cur ++ ['|', '|']) sq dq false
                        cs.tail from by
                        rw [parse_pipeline_go]; simp [hesc, hbs, hsq, hdq, hp, hh],
                    show pipeChunks sq dq esc (c :: cs) =
                      consHead c (consHead '|'
                        (pipeChunks sq dq false cs.tail)) from by
                        rw [pipeChunks]; simp [hesc, hbs, hsq, hdq, hp, hh],
                    ih cs.tail htail, consAll_consHead, consAll_consHead]
                  rw [hp.1]
                  simp [List.append_assoc]
                · rw [show parse_pipeline_go segs cur sq dq esc (c :: cs) =
                      parse_pipeline_go
                        (if trim cur = [] then segs
                          else segs ++ [String.mk (trim cur)])
                        [] sq dq false cs from by
                        rw [parse_pipeline_go]; simp [hesc, hbs, hsq, hdq, hp, hh],
                    show pipeChunks sq dq esc (c :: cs) =
                      [] :: pipeChunks sq dq false cs from by
                        rw [pipeChunks]; simp [hesc, hbs, hsq, hdq, hp, hh],
                    ih cs hcs]
                  have hne := pipeChunks_ne_nil cs sq dq false
                  have hca : consAll [] (pipeChunks sq dq false cs) =
                      pipeChunks sq dq false cs := by
                    cases hx : pipeChunks sq dq false cs with
                    | nil => exact absurd hx hne
                    | cons a as => simp [consAll]
                  rw [hca]
                  rw [show consAll cur ([] :: pipeChunks sq dq false cs) =
                    cur :: pipeChunks sq dq false cs from by simp [consAll]]
                  by_cases h : trim cur = []
                  · simp [h, stringMk_eq_empty, List.append_assoc]
                  · simp [h, stringMk_eq_empty, List.append_assoc]
              · rw [show parse_pipeline_go segs cur sq dq esc (c :: cs) =
                    parse_pipeline_go segs (cur ++ [c]) sq dq false cs from by
                      rw [parse_pipeline_go]; simp [hesc, hbs, hsq, hdq, hp],
                  show pipeChunks sq dq esc (c :: cs) =
                    consHead c (pipeChunks sq dq false cs) from by
                      rw [pipeChunks]; simp [hesc, hbs, hsq, hdq, hp],
                  ih cs hcs, consAll_consHead]

/-- Claim C8: the pipeline splitter equals the claim's declarative split —
segments are the chunks delimited at every `|` outside single and double
quotes that is neither escaped nor part of a `||` pair (kept in its segment
as the logical-OR operator), trimmed, with empty segments dropped — and on
the claim's two examples it returns the stated lists. -/
theorem parse_pipeline_spec :
    (∀ s : String, parse_pipeline s = splitSpec s) ∧
    parse_pipeline "echo \"a|b\" | grep a" = ["echo \"a|b\"", "grep a"] ∧
    parse_pipeline "a || b" = ["a || b"] := by
  have hmain : ∀ s : String, parse_pipeline s = splitSpec s := by
    intro s
    rw [parse_pipeline, splitSpec]
    rw [go_eq_chunks s.data.length s.data le_rfl]
    have hne := pipeChunks_ne_nil s.data false false false
    have hca : consAll [] (pipeChunks false false false s.data) =
        pipeChunks false false false s.data := by
      cases hx : pipeChunks false false false s.data with
      | nil => exact absurd hx hne
      | cons a as => simp [consAll]
    rw [hca]
    rfl
  refine ⟨hmain, ?_, ?_⟩
  · rw [hmain]
    simp [splitSpec, pipeChunks, consHead, trim, trimLeft, trimRight, isWs]
  · rw [hmain]
    simp [splitSpec, pipeChunks, consHead, trim, trimLeft, trimRight, isWs]

/-- Claim C7: in both executor variants, an empty parsed pipestatus list is
synthesized as the one-element list `[exit_code]`, and the reported
`exit_code` is always the last element of the (possibly synthesized)
pipestatus list. -/
theorem executor_pipestatus_spec (meta : String) (code : ℤ) (ms : ℕ)
    (tmo : Bool) :
    ((finalize_pipe meta code ms tmo).pipestatus =
        (if parse_pipestatus meta = [] then [code]
          else parse_pipestatus meta) ∧
      (finalize_pipe meta code ms tmo).pipestatus.getLast? =
        some (finalize_pipe meta code ms tmo).exit_code) ∧
    ((finalize_pty meta code ms tmo).pipestatus =
        (if parse_pipestatus meta = [] then [code]
          else parse_pipestatus meta) ∧
      (finalize_pty meta code ms tmo).pipestatus.getLast? =
        some (finalize_pty meta code ms tmo).exit_code) := by
  constructor
  · rw [finalize_pipe]
    cases h : parse_pipestatus meta with
    | nil => simp
    | cons p ps =>
      simp only [h]
      rw [if_neg (by simp)]
      exact ⟨rfl, List.getLast?_eq_getLast _ _⟩
  · rw [finalize_pty]
    cases h : parse_pipestatus meta with
    | nil => simp
    | cons p ps =>
      simp only [h]
      rw [if_neg (by simp)]
      exact ⟨rfl, List.getLast?_eq_getLast _ _⟩

theorem streak_succ_fold :
    ∀ (ts : List ℚ) (m lf : ℤ) (t0 : ℚ),
      (ts.map (fun t => ((1 : ℤ), t))).foldl
        (fun acc p => some (update_streak acc p.1 p.2))
        (some ⟨m, m, lf, 1, t0⟩) =
      some ⟨m + ts.length, m + ts.length, lf, 1, ts.getLastD t0⟩ := by
  intro ts
  induction ts with
  | nil => intro m lf t0; simp
  | cons t ts ih =>
    intro m lf t0
    have hstep : update_streak (some ⟨m, m, lf, 1, t0⟩) 1 t =
        ⟨m + 1, m + 1, lf, 1, t⟩ := by
      simp [update_streak]
    simp only [List.map_cons, List.foldl_cons, hstep]
    rw [ih (m + 1) lf t]
    simp only [List.getLastD_cons, List.length_cons, Nat.cast_add, Nat.cast_one]
    rw [show m + 1 + (ts.length : ℤ) = m + ((ts.length : ℤ) + 1) from by ring]

/-- Claim C5: a fingerprint with no prior streak row starts at `+1` on
success and `-1` on failure; after `k ≥ 1` consecutive successes from a fresh
fingerprint the stored `current_streak` equals `k` and
`longest_success_streak` is at least `k`; recording one failure immediately
after sets `current_streak` to `-1` and leaves `longest_success_streak`
unchanged. -/
theorem streak_spec :
    (∀ t : ℚ, (update_streak none 1 t).current_streak = 1) ∧
    (∀ t : ℚ, (update_streak none 0 t).current_streak = -1) ∧
    (∀ (ts : List ℚ) (tf : ℚ), ts ≠ [] →
      ∃ row, runStreak (ts.map (fun t => ((1 : ℤ), t))) = some row ∧
        row.current_streak = ts.length ∧
        (ts.length : ℤ) ≤ row.longest_success_streak ∧
        (update_streak (some row) 0 tf).current_streak = -1 ∧
        (update_streak (some row) 0 tf).longest_success_streak =
          row.longest_success_streak) := by
  refine ⟨fun t => by simp [update_streak], fun t => by simp [update_streak], ?_⟩
  intro ts tf hne
  cases ts with
  | nil => exact absurd rfl hne
  | cons t0 ts' =>
    have h0 : update_streak none 1 t0 = ⟨1, 1, 0, 1, t0⟩ := by
      simp [update_streak]
    refine ⟨⟨1 + ts'.length, 1 + ts'.length, 0, 1, ts'.getLastD t0⟩, ?_, ?_, ?_, ?_, ?_⟩
    · rw [runStreak]
      simp only [List.map_cons, List.foldl_cons, h0]
      exact streak_succ_fold ts' 1 0 t0
    · simp only [List.length_cons]
      push_cast
      omega
    · simp only [List.length_cons]
      push_cast
      omega
    · simp [update_streak]
    · simp [update_streak]

/-- Witness: one success at time 0 from a fresh fingerprint, then a failure
at time 1. -/
theorem streak_spec_witness :
    (update_streak none 1 0).current_streak = 1 ∧
    (update_streak none 0 0).current_streak = -1 ∧
    (∃ row, runStreak ([(0 : ℚ)].map (fun t => ((1 : ℤ), t))) = some row ∧
      row.current_streak = ([(0 : ℚ)].length : ℤ) ∧
      (([(0 : ℚ)].length : ℤ)) ≤ row.longest_success_streak ∧
      (update_streak (some row) 0 1).current_streak = -1 ∧
      (update_streak (some row) 0 1).longest_success_streak =
        row.longest_success_streak) :=
  ⟨streak_spec.1 0, streak_spec.2.1 0, streak_spec.2.2 [0] 1 (by simp)⟩

theorem applyDecayObs_ids (factor : Obs → ℚ) (threshold : ℚ)
    (rows : List Obs) :
    (applyDecayObs factor threshold rows).map (fun o => o.id) =
      rows.map (fun o => o.id) := by
  rw [applyDecayObs, List.map_map]
  congr 1
  funext o
  by_cases h : threshold < o.weight <;> simp [h]

/-- Claim C6: after `prune`, no remaining observation has
`weight < threshold`, there are at most `max_entries` observations (the `id`
column is a primary key, hence the `Nodup` hypothesis), and every remaining
SSH observation references an existing observation. -/
theorem prune_spec (db : AlanDb) (factObs : Obs → ℚ) (factSsh : SshObs → ℚ)
    (threshold : ℚ) (maxEntries : ℕ) (nowIso : String)
    (hids : (db.observations.map (fun o => o.id)).Nodup) :
    (∀ o ∈ (prune db factObs factSsh threshold maxEntries
        nowIso).observations, ¬ o.weight < threshold) ∧
    (prune db factObs factSsh threshold maxEntries
        nowIso).observations.length ≤ maxEntries ∧
    (∀ s ∈ (prune db factObs factSsh threshold maxEntries
        nowIso).ssh_observations,
      s.observation_id ∈
        (prune db factObs factSsh threshold maxEntries
          nowIso).observations.map (fun o => o.id)) := by
  set db1 := apply_decay db factObs factSsh threshold with hdb1
  set obs2 := db1.observations.filter (fun o => ¬ o.weight < threshold)
    with hobs2
  set keep := topIds obs2 maxEntries with hkeep
  set obs3 := obs2.filter (fun o => o.id ∈ keep) with hobs3
  have hpr : (prune db factObs factSsh threshold maxEntries
      nowIso).observations = obs3 := rfl
  have hprs : (prune db factObs factSsh threshold maxEntries
      nowIso).ssh_observations =
      (db1.ssh_observations.filter (fun s => ¬ s.weight < threshold)).filter
        (fun s => s.observation_id ∈ obs3.map (fun o => o.id)) := rfl
  refine ⟨?_, ?_, ?_⟩
  · intro o ho
    rw [hpr, hobs3] at ho
    have h2 := (List.mem_filter.mp ho).1
    have h3 := (List.mem_filter.mp h2).2
    simpa using h3
  · rw [hpr]
    -- the surviving ids are a nodup subset of `keep`
    have hnd : (obs3.map (fun o => o.id)).Nodup := by
      have hnd2 : (obs2.map (fun o => o.id)).Nodup := by
        have hsub : (obs2.map (fun o => o.id)).Sublist
            (db1.observations.map (fun o => o.id)) :=
          (List.filter_sublist _).map _
        have hd1 : (db1.observations.map (fun o => o.id)).Nodup := by
          rw [hdb1]
          show ((applyDecayObs factObs threshold db.observations).map
            (fun o => o.id)).Nodup
          rw [applyDecayObs_ids]
          exact hids
        exact hsub.nodup hd1
      exact ((List.filter_sublist _).map _).nodup hnd2
    have hsubkeep : (obs3.map (fun o => o.id)) ⊆ keep := by
      intro x hx
      rcases List.mem_map.mp hx with ⟨o, ho, rfl⟩
      have := List.of_mem_filter ho
      simpa using this
    have h1 : obs3.length = (obs3.map (fun o => o.id)).length := by simp
    have h2 : (obs3.map (fun o => o.id)).length =
        (obs3.map (fun o => o.id)).toFinset.card :=
      (List.toFinset_card_of_nodup hnd).symm
    have h3 : (obs3.map (fun o => o.id)).toFinset ⊆ keep.toFinset := by
      intro x hx
      rw [List.mem_toFinset] at hx ⊢
      exact hsubkeep hx
    have h4 : keep.toFinset.card ≤ keep.length := List.toFinset_card_le _
    have h5 : keep.length ≤ maxEntries := by
      rw [hkeep, topIds]
      simp [List.length_take]
    calc obs3.length = (obs3.map (fun o => o.id)).toFinset.card := by
          rw [h1, h2]
      _ ≤ keep.toFinset.card := Finset.card_le_card h3
      _ ≤ keep.length := h4
      _ ≤ maxEntries := h5
  · intro s hs
    rw [hprs] at hs
    have := List.of_mem_filter hs
    rw [hpr]
    simpa using this

/-- Witness: a two-row database with distinct primary keys. -/
theorem prune_spec_witness :
    (([⟨"a", 1⟩, ⟨"b", 0⟩] : List Obs).map (fun o => o.id)).Nodup ∧
    ((∀ o ∈ (prune ⟨[⟨"a", 1⟩, ⟨"b", 0⟩], [⟨"s", "a", 1⟩, ⟨"t", "b", 1⟩], []⟩
        (fun _ => 1) (fun _ => 1) (1/2) 10 "now").observations,
      ¬ o.weight < (1/2 : ℚ)) ∧
    (prune ⟨[⟨"a", 1⟩, ⟨"b", 0⟩], [⟨"s", "a", 1⟩, ⟨"t", "b", 1⟩], []⟩
        (fun _ => 1) (fun _ => 1) (1/2) 10 "now").observations.length ≤ 10 ∧
    (∀ s ∈ (prune ⟨[⟨"a", 1⟩, ⟨"b", 0⟩], [⟨"s", "a", 1⟩, ⟨"t", "b", 1⟩], []⟩
        (fun _ => 1) (fun _ => 1) (1/2) 10 "now").ssh_observations,
      s.observation_id ∈
        (prune ⟨[⟨"a", 1⟩, ⟨"b", 0⟩], [⟨"s", "a", 1⟩, ⟨"t", "b", 1⟩], []⟩
          (fun _ => 1) (fun _ => 1) (1/2) 10 "now").observations.map
            (fun o => o.id))) :=
  ⟨by simp, prune_spec _ _ _ _ _ _ (by simp)⟩

theorem count_filter_ne_self (l : List String) (id : String) :
    (l.filter (fun e => !decide (e = id))).count id = 0 := by
  rw [List.count_eq_zero]
  intro hm
  have := List.of_mem_filter hm
  simp at this

theorem count_filter_ne_other (l : List String) (id b : String)
    (h : id ≠ b) :
    (l.filter (fun e => !decide (e = b))).count id = l.count id :=
  List.count_filter (by simp [h])

theorem sweep_mem (tasks : String → Option Bool) (done : List String)
    (id : String) :
    id ∈ (sweep tasks done).2 ↔ id ∈ done ∧ tasks id = some true := by
  simp [sweep]

theorem sweep_count_le_one (tasks : String → Option Bool)
    (done : List String) (id : String) (hd : done.Nodup) :
    ((sweep tasks done).2).count id ≤ 1 := by
  have h1 : ((sweep tasks done).2).count id ≤ done.count id :=
    (List.filter_sublist _).count_le id
  have h2 := List.nodup_iff_count_le_one.mp hd id
  omega

theorem sweep_tasks_at (tasks : String → Option Bool) (done : List String)
    (id : String) :
    (sweep tasks done).1 id =
      if id ∈ done then (tasks id).map (fun _ => false) else tasks id := by
  simp [sweep]

theorem sweep_not_run (tasks : String → Option Bool) (done : List String)
    (id : String) (h : tasks id ≠ some true) :
    (sweep tasks done).1 id ≠ some true := by
  rw [sweep_tasks_at]
  split
  · cases tasks id <;> simp
  · exact h

theorem sweep_done_not_run (tasks : String → Option Bool)
    (done : List String) (id : String) (h : id ∈ done) :
    (sweep tasks done).1 id ≠ some true := by
  rw [sweep_tasks_at, if_pos h]
  cases tasks id <;> simp

theorem sweep_none (tasks : String → Option Bool) (done : List String)
    (id : String) (h : tasks id = none) :
    (sweep tasks done).1 id = none := by
  rw [sweep_tasks_at, h]
  split <;> rfl

theorem handleTool_not_run (s1 : SrvState) (req : ToolReq) (id : String)
    (h : s1.tasks id ≠ some true) (hreq : req ≠ .zsh id true) :
    (handleTool s1 req).tasks id ≠ some true := by
  cases req with
  | zsh id' reg =>
    cases reg with
    | false => simpa [handleTool] using h
    | true =>
      have hne : id ≠ id' := fun he => hreq (by rw [he])
      simpa [handleTool, hne] using h
  | poll id' dn =>
    rw [handleTool]
    cases ht : s1.tasks id' with
    | none => exact h
    | some b =>
      cases b with
      | false => exact h
      | true =>
        cases dn with
        | false => simpa using h
        | true =>
          simp only [if_pos rfl]
          by_cases hne : id = id' <;> simp [hne, h]
  | kill id' =>
    rw [handleTool]
    cases ht : s1.tasks id' with
    | none => exact h
    | some b =>
      cases b with
      | false => exact h
      | true =>
        by_cases hne : id = id' <;> simp [hne, h]
  | other => exact h

theorem handleTool_none (s1 : SrvState) (req : ToolReq) (id : String)
    (h : s1.tasks id = none) (hreq : req ≠ .zsh id true) :
    (handleTool s1 req).tasks id = none := by
  cases req with
  | zsh id' reg =>
    cases reg with
    | false => simpa [handleTool] using h
    | true =>
      have hne : id ≠ id' := fun he => hreq (by rw [he])
      simpa [handleTool, hne] using h
  | poll id' dn =>
    rw [handleTool]
    cases ht : s1.tasks id' with
    | none => exact h
    | some b =>
      cases b with
      | false => exact h
      | true =>
        cases dn with
        | false => simpa using h
        | true =>
          simp only [if_pos rfl]
          have hne : ¬ id = id' := by
            intro he
            rw [he, ht] at h
            cases h
          simp [hne, h]
  | kill id' =>
    rw [handleTool]
    cases ht : s1.tasks id' with
    | none => exact h
    | some b =>
      cases b with
      | false => exact h
      | true =>
        by_cases hne : id = id' <;> simp [hne, h]
  | other => exact h

theorem toolCall_tasks : ∀ (s : SrvState) (done : List String) (req : ToolReq),
    (toolCall s done req).1.tasks =
      (handleTool ⟨(sweep s.tasks done).1, s.queue ++ (sweep s.tasks done).2⟩
        req).tasks := by
  intro s done req
  rfl

theorem toolCall_queue_empty (s : SrvState) (done : List String)
    (req : ToolReq) : (toolCall s done req).1.queue = [] := rfl

theorem startIds_cons_cases (done : List String) (req : ToolReq)
    (rest : List (List String × ToolReq)) :
    startIds ((done, req) :: rest) = startIds rest ∨
    ∃ i, req = .zsh i true ∧
      startIds ((done, req) :: rest) = i :: startIds rest := by
  cases req with
  | zsh i reg =>
    cases reg with
    | false => left; rfl
    | true => right; exact ⟨i, rfl, rfl⟩
  | poll i dn => left; rfl
  | kill i => left; rfl
  | other => left; rfl

theorem startIds_rest_sub (done : List String) (req : ToolReq)
    (rest : List (List String × ToolReq)) :
    startIds rest ⊆ startIds ((done, req) :: rest) := by
  rcases startIds_cons_cases done req rest with h | ⟨i, _, h⟩ <;> rw [h]
  · exact fun x hx => hx
  · exact fun x hx => List.mem_cons_of_mem _ hx

theorem startIds_rest_nodup (done : List String) (req : ToolReq)
    (rest : List (List String × ToolReq))
    (h : (startIds ((done, req) :: rest)).Nodup) : (startIds rest).Nodup := by
  rcases startIds_cons_cases done req rest with he | ⟨i, _, he⟩ <;> rw [he] at h
  · exact h
  · exact h.of_cons

theorem startIds_mem_of_zsh (done : List String) (id : String)
    (rest : List (List String × ToolReq)) :
    id ∈ startIds ((done, .zsh id true) :: rest) := by
  rcases startIds_cons_cases done (.zsh id true) rest with h | ⟨i, hi, h⟩
  · simp [startIds, List.filterMap_cons] at h
  · rw [h]
    injection hi with h1 _
    rw [h1]
    exact List.mem_cons_self _ _

/-- The `[notify]` count of one call's response for a task: the number of
events its sweep enqueued for that task, unless the handler was a direct
`zsh_poll` of that task (which suppresses them). -/
theorem toolCall_notes_count (s : SrvState) (done : List String)
    (req : ToolReq) (id : String) (hq : s.queue = []) :
    (toolCall s done req).2.count id =
      if id ∈ (sweep s.tasks done).2 ∧ ¬ isPollOf req id then
        ((sweep s.tasks done).2).count id
      else 0 := by
  have hq1 : s.queue ++ (sweep s.tasks done).2 = (sweep s.tasks done).2 := by
    rw [hq]; rfl
  have hzero : id ∉ (sweep s.tasks done).2 →
      ((sweep s.tasks done).2).count id = 0 := fun h =>
    List.count_eq_zero.mpr h
  show ((handleTool ⟨(sweep s.tasks done).1,
    s.queue ++ (sweep s.tasks done).2⟩ req).queue).count id = _
  cases req with
  | zsh id' reg =>
    cases reg <;>
      · simp only [handleTool, if_true, if_false, Bool.false_eq_true, if_neg]
        by_cases hm : id ∈ (sweep s.tasks done).2 <;>
          simp [hq1, hm, isPollOf, hzero]
  | other =>
    simp only [handleTool]
    by_cases hm : id ∈ (sweep s.tasks done).2 <;>
      simp [hq1, hm, isPollOf, hzero]
  | kill id' =>
    rw [handleTool]
    cases ht : (sweep s.tasks done).1 id' with
    | none =>
      by_cases hm : id ∈ (sweep s.tasks done).2 <;>
        simp [ht, hq1, hm, isPollOf, hzero]
    | some b =>
      cases b <;>
        · by_cases hm : id ∈ (sweep s.tasks done).2 <;>
            simp [ht, hq1, hm, isPollOf, hzero]
  | poll id' dn =>
    rw [handleTool]
    by_cases hid : id' = id
    · subst hid
      have hpoll : isPollOf (.poll id' dn) id' := rfl
      by_cases hm : id' ∈ (sweep s.tasks done).2
      · have hrun := (sweep_mem s.tasks done id').mp hm
        have ht : (sweep s.tasks done).1 id' = some false := by
          rw [sweep_tasks_at, if_pos hrun.1, hrun.2]
          rfl
        simp only [ht]
        simp [hq1, hpoll, count_filter_ne_self]
      · cases ht : (sweep s.tasks done).1 id' with
        | none => simp [ht, hq1, hm, hzero]
        | some b =>
          cases b with
          | false => simp [ht, hq1, hm, count_filter_ne_self]
          | true =>
            cases dn with
            | false => simp [ht, hq1, hm, hzero]
            | true => simp [ht, hq1, hm, count_filter_ne_self]
    · have hpoll : ¬ isPollOf (.poll id' dn) id := fun h => hid h
      cases ht : (sweep s.tasks done).1 id' with
      | none =>
        by_cases hm : id ∈ (sweep s.tasks done).2 <;>
          simp [ht, hq1, hm, hpoll, hzero]
      | some b =>
        have hcf := count_filter_ne_other ((sweep s.tasks done).2) id id'
          (fun h => hid h.symm)
        cases b with
        | false =>
          by_cases hm : id ∈ (sweep s.tasks done).2 <;>
            simp [ht, hq1, hm, hpoll, hzero, hcf]
        | true =>
          cases dn with
          | false =>
            by_cases hm : id ∈ (sweep s.tasks done).2 <;>
              simp [ht, hq1, hm, hpoll, hzero, hcf]
          | true =>
            by_cases hm : id ∈ (sweep s.tasks done).2 <;>
              simp [ht, hq1, hm, hpoll, hzero, hcf]

theorem startIds_zsh_cons (done : List String) (i : String)
    (rest : List (List String × ToolReq)) :
    startIds ((done, .zsh i true) :: rest) = i :: startIds rest := rfl

theorem notifyTotal_cons (L : CallLog) (logs : List CallLog) (id : String) :
    notifyTotal (L :: logs) id = L.notes.count id + notifyTotal logs id := by
  simp [notifyTotal]

/-- The inductive core of the exactly-once property, over an arbitrary fresh
starting state: (1) across the whole run the completion event of a task is
enqueued by at most one call; (2) if the task is not running and is never
registered, it is never enqueued; (3) starting from an empty queue, the total
number of `[notify]` lines for the task equals the number of calls that both
enqueued its event and did not directly poll it; (4) no single sweep enqueues
the event twice. -/
theorem runLog_spec :
    ∀ (calls : List (List String × ToolReq)) (s : SrvState) (id : String),
      FreshRun s calls →
      ((runLog s calls).countP (fun L => decide (id ∈ L.enq)) ≤ 1) ∧
      (s.tasks id ≠ some true → id ∉ startIds calls →
        (runLog s calls).countP (fun L => decide (id ∈ L.enq)) = 0) ∧
      (s.queue = [] →
        notifyTotal (runLog s calls) id =
          (runLog s calls).countP
            (fun L => decide (id ∈ L.enq ∧ ¬ isPollOf L.req id))) ∧
      (∀ L ∈ runLog s calls, L.enq.count id ≤ 1) := by
  intro calls
  induction calls with
  | nil =>
    intro s id _
    exact ⟨by simp [runLog], fun _ _ => by simp [runLog],
      fun _ => by simp [runLog, notifyTotal], by simp [runLog]⟩
  | cons c rest ih =>
    obtain ⟨done, req⟩ := c
    intro s id hf
    obtain ⟨hnd, hfresh, hdones⟩ := hf
    have hdn : done.Nodup := hdones (done, req) (List.mem_cons_self _ _)
    set s' := (toolCall s done req).1 with hs'
    have hq' : s'.queue = [] := by rw [hs']; rfl
    have hrl : runLog s ((done, req) :: rest) =
        ⟨(sweep s.tasks done).2, (toolCall s done req).2, req⟩ ::
          runLog s' rest := rfl
    have hfr : FreshRun s' rest := by
      refine ⟨startIds_rest_nodup _ _ _ hnd, ?_,
        fun c hc => hdones c (List.mem_cons_of_mem _ hc)⟩
      intro i hi
      have hni : s.tasks i = none := hfresh i (startIds_rest_sub _ _ _ hi)
      have hreqni : req ≠ .zsh i true := by
        intro he
        subst he
        rw [startIds_zsh_cons] at hnd
        exact (List.nodup_cons.mp hnd).1 hi
      rw [hs', toolCall_tasks]
      exact handleTool_none _ _ _ (sweep_none _ _ _ hni) hreqni
    have IH := ih s' id hfr
    by_cases hidE : id ∈ (sweep s.tasks done).2
    · have hrun : s.tasks id = some true := ((sweep_mem _ _ _).mp hidE).2
      have hdid : id ∈ done := ((sweep_mem _ _ _).mp hidE).1
      have hnstart : id ∉ startIds ((done, req) :: rest) := by
        intro hmem
        rw [hfresh id hmem] at hrun
        cases hrun
      have hreqne : req ≠ .zsh id true := by
        intro he
        subst he
        exact hnstart (startIds_mem_of_zsh _ _ _)
      have hnr' : s'.tasks id ≠ some true := by
        rw [hs', toolCall_tasks]
        exact handleTool_not_run _ _ _ (sweep_done_not_run _ _ _ hdid) hreqne
      have hnstart' : id ∉ startIds rest :=
        fun h => hnstart (startIds_rest_sub _ _ _ h)
      have hrest0 : (runLog s' rest).countP (fun L => decide (id ∈ L.enq)) = 0 :=
        IH.2.1 hnr' hnstart'
      have hrest0' : (runLog s' rest).countP
          (fun L => decide (id ∈ L.enq ∧ ¬ isPollOf L.req id)) = 0 := by
        have hmono : (runLog s' rest).countP
            (fun L => decide (id ∈ L.enq ∧ ¬ isPollOf L.req id)) ≤
            (runLog s' rest).countP (fun L => decide (id ∈ L.enq)) := by
          apply List.countP_mono_left
          intro L _ h
          simp only [decide_eq_true_eq] at h ⊢
          exact h.1
        omega
      have hcnt1 : ((sweep s.tasks done).2).count id = 1 := by
        have h1 := sweep_count_le_one s.tasks done id hdn
        have h2 : 0 < ((sweep s.tasks done).2).count id :=
          List.count_pos_iff.mpr hidE
        omega
      refine ⟨?_, ?_, ?_, ?_⟩
      · rw [hrl, List.countP_cons, hrest0]
        simp [hidE]
      · intro h1 _
        exact absurd hrun h1
      · intro hq
        rw [hrl, notifyTotal_cons, List.countP_cons,
          IH.2.2.1 hq', toolCall_notes_count s done req id hq]
        by_cases hp : isPollOf req id
        · simp [hp, hidE, hrest0']
        · simp [hp, hidE, hrest0', hcnt1]
          omega
      · intro L hL
        rw [hrl] at hL
        rcases List.mem_cons.mp hL with hL | hL
        · rw [hL]
          exact sweep_count_le_one s.tasks done id hdn
        · exact IH.2.2.2 L hL
    · have hcnt0 : ((sweep s.tasks done).2).count id = 0 :=
        List.count_eq_zero.mpr hidE
      refine ⟨?_, ?_, ?_, ?_⟩
      · rw [hrl, List.countP_cons]
        simp only [hidE, decide_eq_true_eq]
        simpa using IH.1
      · intro h1 h2
        have hreqne : req ≠ .zsh id true := by
          intro he
          subst he
          exact h2 (startIds_mem_of_zsh _ _ _)
        have hnr' : s'.tasks id ≠ some true := by
          rw [hs', toolCall_tasks]
          exact handleTool_not_run _ _ _ (sweep_not_run _ _ _ h1) hreqne
        have h2' : id ∉ startIds rest :=
          fun h => h2 (startIds_rest_sub _ _ _ h)
        rw [hrl, List.countP_cons, IH.2.1 hnr' h2']
        simp [hidE]
      · intro hq
        rw [hrl, notifyTotal_cons, List.countP_cons,
          IH.2.2.1 hq', toolCall_notes_count s done req id hq]
        simp [hidE]
      · intro L hL
        rw [hrl] at hL
        rcases List.mem_cons.mp hL with hL | hL
        · rw [hL]
          exact sweep_count_le_one s.tasks done id hdn
        · exact IH.2.2.2 L hL

/-- Claim C9: over any sequence of tool calls from a fresh server, each
background task completion produces exactly one `[notify]` line across all
responses.  Concretely: the number of `[notify]` lines for a task over the
whole run equals the number of calls whose background sweep enqueued its
completion event and whose handler was not a direct `zsh_poll` of that task;
the event is enqueued by at most one call, and at most once by that call's
sweep (so a background completion not directly polled notifies exactly once,
and a direct `zsh_poll` in the enqueueing call suppresses the notification
entirely); and every call drains the queue completely into its response. -/
theorem notify_exactly_once (calls : List (List String × ToolReq))
    (id : String) (hf : FreshRun initSrv calls) :
    notifyTotal (runLog initSrv calls) id =
      (runLog initSrv calls).countP
        (fun L => decide (id ∈ L.enq ∧ ¬ isPollOf L.req id)) ∧
    (runLog initSrv calls).countP (fun L => decide (id ∈ L.enq)) ≤ 1 ∧
    (∀ L ∈ runLog initSrv calls, L.enq.count id ≤ 1) ∧
    (∀ (s : SrvState) (done : List String) (req : ToolReq),
      (toolCall s done req).1.queue = []) := by
  have h := runLog_spec calls initSrv id hf
  exact ⟨h.2.2.1 rfl, h.1, h.2.2.2,
    fun s done req => toolCall_queue_empty s done req⟩

/-- Witness for `notify_exactly_once` on the concrete run `c9Calls`. -/
theorem notify_exactly_once_witness :
    FreshRun initSrv c9Calls ∧
    (notifyTotal (runLog initSrv c9Calls) "t1" =
        (runLog initSrv c9Calls).countP
          (fun L => decide ("t1" ∈ L.enq ∧ ¬ isPollOf L.req "t1")) ∧
      (runLog initSrv c9Calls).countP
        (fun L => decide ("t1" ∈ L.enq)) ≤ 1 ∧
      (∀ L ∈ runLog initSrv c9Calls, L.enq.count "t1" ≤ 1) ∧
      (∀ (s : SrvState) (done : List String) (req : ToolReq),
        (toolCall s done req).1.queue = [])) := by
  have hf : FreshRun initSrv c9Calls := ⟨by decide, by decide, by decide⟩
  exact ⟨hf, notify_exactly_once c9Calls "t1" hf⟩

end ZshTool
